import Mathlib

/-!
Verification of the Cholesky factorization and rank-one update/downdate
algorithms of `cholesky.py` (functions `chol_up`, `chol_left`,
`chol_left_amp`, `chol_super`, `chol_right`, `chol_update`, `chol_downdate`
and `chol_updown`).

Dense `N` by `N` numpy arrays are embedded as real-valued functions on pairs
of natural indices; an algorithm only ever reads and writes the block of
indices below its dimension argument `N`, and every statement is restricted
to that block.  Floating point arithmetic is idealized as exact real
arithmetic, which is the reading the specification itself takes (results hold
"in exact arithmetic", "within floating-point tolerance").  `np.sqrt` is
embedded as `Real.sqrt`; where numpy would produce `NaN` (square root of a
negative number) the embedding produces the junk value `0`, and the
surrounding development never relies on the value of `Real.sqrt` on negative
inputs except where a theorem explicitly exhibits such junk output.
-/

namespace CSparse

/-- Dense matrices: an `N` by `N` numpy array occupies the indices below `N`. -/
abbrev Mat : Type := ℕ → ℕ → ℝ

/-- Dense vectors, same convention. -/
abbrev Vec : Type := ℕ → ℝ

/-- Entry `(i, k)` of the product `L @ L.T` of the `N` block: the dot product
of rows `i` and `k` of `L`. -/
noncomputable def matMulT (L : Mat) (N : ℕ) : Mat :=
  fun i k => ∑ m in Finset.range N, L i m * L k m

/-- `L` is lower triangular on the `N` block: all entries strictly above the
diagonal are zero. -/
def IsLowerTri (L : Mat) (N : ℕ) : Prop := ∀ i m, i < m → m < N → L i m = 0

/-- `A` is symmetric on the `N` block. -/
def IsSymm (A : Mat) (N : ℕ) : Prop := ∀ i k, i < N → k < N → A i k = A k i

/-- The quadratic form of the `N` block of `A` at the vector `x`. -/
noncomputable def quadForm (A : Mat) (N : ℕ) (x : Vec) : ℝ :=
  ∑ i in Finset.range N, ∑ k in Finset.range N, x i * A i k * x k

/-- Symmetric positive definite on the `N` block: the quadratic form is
positive at every vector that is nonzero somewhere below `N`. -/
def IsSPD (A : Mat) (N : ℕ) : Prop :=
  IsSymm A N ∧ ∀ x : Vec, (∃ i, i < N ∧ x i ≠ 0) → 0 < quadForm A N x

/-- One iteration of the column loop of `chol_left` (`cholesky.py`, p. 60
variant): `L[k,k] = np.sqrt(A[k,k] - L[k,:k] @ L[k,:k].T)` followed by
`L[k+1:,k] = (A[k+1:,k] - L[k+1:,:k] @ L[k,:k].T) / L[k,k]`, acting on the
current matrix state `L`.  The divisor is the freshly written diagonal
entry. -/
noncomputable def cholStep (A : Mat) (N : ℕ) (L : Mat) (k : ℕ) : Mat :=
  fun i m =>
    if m = k ∧ i = k then
      Real.sqrt (A k k - ∑ j in Finset.range k, L k j ^ 2)
    else if m = k ∧ k < i ∧ i < N then
      (A i k - ∑ j in Finset.range k, L i j * L k j) /
        Real.sqrt (A k k - ∑ j in Finset.range k, L k j ^ 2)
    else L i m

/-- The matrix state of `chol_left` after its loop has processed the columns
`0 .. k-1`, starting from `np.zeros((N, N))`. -/
noncomputable def cholPartial (A : Mat) (N : ℕ) (k : ℕ) : Mat :=
  (List.range k).foldl (cholStep A N) (fun _ _ => 0)

/-- `chol_left(A, lower=True)`: the left-looking factorization, the full run
of the column loop. -/
noncomputable def cholLeft (A : Mat) (N : ℕ) : Mat := cholPartial A N N

theorem cholPartial_succ (A : Mat) (N k : ℕ) :
    cholPartial A N (k + 1) = cholStep A N (cholPartial A N k) k := by
  unfold cholPartial
  rw [List.range_succ, List.foldl_append]
  rfl

theorem cholPartial_zero_entry (A : Mat) (N : ℕ) :
    ∀ k i m, (k ≤ m ∨ i < m) → cholPartial A N k i m = 0 := by
  intro k
  induction k with
  | zero => intro i m _; rfl
  | succ k ih =>
    intro i m hm
    rw [cholPartial_succ]
    unfold cholStep
    have hmk : ¬ (m = k ∧ i = k) := by rintro ⟨rfl, rfl⟩; omega
    have hmk' : ¬ (m = k ∧ k < i ∧ i < N) := by rintro ⟨rfl, hki, _⟩; omega
    rw [if_neg hmk, if_neg hmk']
    exact ih i m (by omega)

theorem cholPartial_stable (A : Mat) (N : ℕ) {k k' : ℕ} (h : k ≤ k') :
    ∀ i m, m < k → cholPartial A N k' i m = cholPartial A N k i m := by
  induction k' with
  | zero => intro i m hm; omega
  | succ c ih =>
    intro i m hm
    rcases Nat.eq_or_lt_of_le h with he | hlt
    · rw [he]
    · have hc : k ≤ c := by omega
      rw [cholPartial_succ]
      unfold cholStep
      have h1 : ¬ (m = c ∧ i = c) := by rintro ⟨rfl, rfl⟩; omega
      have h2 : ¬ (m = c ∧ c < i ∧ i < N) := by rintro ⟨rfl, _, _⟩; omega
      rw [if_neg h1, if_neg h2]
      exact ih hc i m hm

theorem cholLeft_upper (A : Mat) (N : ℕ) {i m : ℕ} (h : i < m) :
    cholLeft A N i m = 0 :=
  cholPartial_zero_entry A N N i m (Or.inr h)

theorem cholLeft_ge (A : Mat) (N : ℕ) {i m : ℕ} (h : N ≤ m) :
    cholLeft A N i m = 0 :=
  cholPartial_zero_entry A N N i m (Or.inl h)

theorem cholLeft_diag (A : Mat) (N : ℕ) {k : ℕ} (hk : k < N) :
    cholLeft A N k k =
      Real.sqrt (A k k - ∑ j in Finset.range k, cholLeft A N k j ^ 2) := by
  have h1 : cholLeft A N k k = cholPartial A N (k + 1) k k :=
    cholPartial_stable A N (by omega) k k (by omega)
  rw [h1, cholPartial_succ]
  unfold cholStep
  rw [if_pos ⟨rfl, rfl⟩]
  congr 1
  congr 1
  apply Finset.sum_congr rfl
  intro j hj
  have hjk : j < k := Finset.mem_range.mp hj
  rw [(cholPartial_stable A N (show k ≤ N by omega) k j hjk).symm]
  rfl

theorem cholLeft_sub (A : Mat) (N : ℕ) {i k : ℕ} (hki : k < i) (hi : i < N) :
    cholLeft A N i k =
      (A i k - ∑ j in Finset.range k, cholLeft A N i j * cholLeft A N k j) /
        cholLeft A N k k := by
  have hk : k < N := by omega
  have h1 : cholLeft A N i k = cholPartial A N (k + 1) i k :=
    cholPartial_stable A N (by omega) i k (by omega)
  rw [h1, cholPartial_succ]
  unfold cholStep
  have hne : ¬ (k = k ∧ i = k) := by rintro ⟨_, rfl⟩; omega
  rw [if_neg hne, if_pos ⟨rfl, hki, hi⟩]
  have hsum : ∀ j, j < k →
      cholPartial A N k i j = cholLeft A N i j ∧
      cholPartial A N k k j = cholLeft A N k j := by
    intro j hj
    constructor
    · exact (cholPartial_stable A N (show k ≤ N by omega) i j hj).symm
    · exact (cholPartial_stable A N (show k ≤ N by omega) k j hj).symm
  have hd : Real.sqrt (A k k - ∑ j in Finset.range k, cholPartial A N k k j ^ 2) =
      cholLeft A N k k := by
    rw [cholLeft_diag A N hk]
    congr 1
    congr 1
    apply Finset.sum_congr rfl
    intro j hj
    rw [(hsum j (Finset.mem_range.mp hj)).2]
  rw [hd]
  congr 1
  congr 1
  apply Finset.sum_congr rfl
  intro j hj
  rw [(hsum j (Finset.mem_range.mp hj)).1, (hsum j (Finset.mem_range.mp hj)).2]

/-- The radicand that `chol_left` takes the square root of at column `k`. -/
noncomputable def cholRad (A : Mat) (N : ℕ) (k : ℕ) : ℝ :=
  A k k - ∑ j in Finset.range k, cholLeft A N k j ^ 2

theorem cholLeft_diag_rad (A : Mat) (N : ℕ) {k : ℕ} (hk : k < N) :
    cholLeft A N k k = Real.sqrt (cholRad A N k) :=
  cholLeft_diag A N hk

theorem cholLeft_lowerTri (A : Mat) (N : ℕ) : IsLowerTri (cholLeft A N) N :=
  fun _ _ h _ => cholLeft_upper A N h

/-- For a matrix whose row `k` vanishes beyond the diagonal, the dot product
of rows `i` and `k` only runs to index `k`. -/
theorem matMulT_lower (M : Mat) (N : ℕ) (hM : IsLowerTri M N) {i k : ℕ}
    (hk : k < N) :
    matMulT M N i k = (∑ m in Finset.range k, M i m * M k m) + M i k * M k k := by
  unfold matMulT
  rw [← Finset.sum_range_succ (fun m => M i m * M k m) k]
  refine (Finset.sum_subset (Finset.range_subset.mpr (by omega)) ?_).symm
  intro m hm hnm
  have h1 : k < m := by
    have h3 := Finset.mem_range.mp hm
    by_contra hc
    exact hnm (Finset.mem_range.mpr (by omega))
  have h2 : m < N := Finset.mem_range.mp hm
  rw [hM k m h1 h2, mul_zero]

theorem matMulT_symm (M : Mat) (N : ℕ) (i k : ℕ) :
    matMulT M N i k = matMulT M N k i := by
  unfold matMulT
  exact Finset.sum_congr rfl fun m _ => mul_comm _ _

/-- `chol_left` reads only the `N` block of its input, so it is invariant
under changing entries outside that block. -/
theorem cholPartial_congr (N : ℕ) {A A' : Mat}
    (hA : ∀ i k, i < N → k < N → A i k = A' i k) :
    ∀ kk, kk ≤ N → cholPartial A N kk = cholPartial A' N kk := by
  intro kk
  induction kk with
  | zero => intro _; rfl
  | succ k ih =>
    intro hk
    rw [cholPartial_succ, cholPartial_succ, ih (by omega)]
    funext i m
    unfold cholStep
    by_cases h1 : m = k ∧ i = k
    · rw [if_pos h1, if_pos h1, hA k k (by omega) (by omega)]
    · rw [if_neg h1, if_neg h1]
      by_cases h2 : m = k ∧ k < i ∧ i < N
      · rw [if_pos h2, if_pos h2, hA i k h2.2.2 (by omega),
          hA k k (by omega) (by omega)]
      · rw [if_neg h2, if_neg h2]

theorem cholLeft_congr (N : ℕ) {A A' : Mat}
    (hA : ∀ i k, i < N → k < N → A i k = A' i k) :
    cholLeft A N = cholLeft A' N :=
  cholPartial_congr N hA N le_rfl

/-- Factor recovery: running `chol_left` on `M @ M.T` gives back `M` whenever
`M` is lower triangular with strictly positive diagonal.  This is the
uniqueness of the Cholesky factor under the positive-diagonal convention. -/
theorem cholLeft_matMulT (N : ℕ) (M : Mat) (hM : IsLowerTri M N)
    (hd : ∀ m, m < N → 0 < M m m) :
    ∀ k, k < N → ∀ i, i < N → cholLeft (matMulT M N) N i k = M i k := by
  intro k
  induction k using Nat.strong_induction_on with
  | _ k ih =>
    intro hk i hi
    have hdiag : cholLeft (matMulT M N) N k k = M k k := by
      rw [cholLeft_diag _ N hk]
      have hsq : ∀ j ∈ Finset.range k,
          cholLeft (matMulT M N) N k j ^ 2 = M k j ^ 2 := by
        intro j hj
        have hjk : j < k := Finset.mem_range.mp hj
        rw [ih j hjk (by omega) k hk]
      rw [Finset.sum_congr rfl hsq, matMulT_lower M N hM hk]
      have he : (∑ m in Finset.range k, M k m * M k m) + M k k * M k k -
          ∑ j in Finset.range k, M k j ^ 2 = M k k ^ 2 := by
        have : ∀ j ∈ Finset.range k, M k j ^ 2 = M k j * M k j := by
          intro j _; ring
        rw [Finset.sum_congr rfl this]; ring
      rw [he, Real.sqrt_sq (le_of_lt (hd k hk))]
    rcases lt_trichotomy i k with h | h | h
    · rw [cholLeft_upper _ N h, hM i k h hk]
    · rw [h]; exact hdiag
    · rw [cholLeft_sub _ N h hi, hdiag]
      have hsums : ∀ j ∈ Finset.range k,
          cholLeft (matMulT M N) N i j * cholLeft (matMulT M N) N k j =
            M i j * M k j := by
        intro j hj
        have hjk : j < k := Finset.mem_range.mp hj
        rw [ih j hjk (by omega) i hi, ih j hjk (by omega) k hk]
      rw [Finset.sum_congr rfl hsums, matMulT_lower M N hM hk]
      have hkk : M k k ≠ 0 := ne_of_gt (hd k hk)
      field_simp

/-- With positive radicands at every column and a symmetric input, the factor
computed by `chol_left` satisfies `L @ L.T = A` on the `N` block. -/
theorem cholLeft_factorizes (A : Mat) (N : ℕ) (hs : IsSymm A N)
    (hr : ∀ k, k < N → 0 < cholRad A N k) :
    ∀ i k, i < N → k < N → matMulT (cholLeft A N) N i k = A i k := by
  have key : ∀ i k, k ≤ i → i < N → matMulT (cholLeft A N) N i k = A i k := by
    intro i k hki hi
    have hk : k < N := by omega
    rw [matMulT_lower (cholLeft A N) N (cholLeft_lowerTri A N) hk]
    rcases Nat.eq_or_lt_of_le hki with he | hlt
    · subst he
      rw [cholLeft_diag_rad A N hk, Real.mul_self_sqrt (le_of_lt (hr k hk))]
      have : ∀ j ∈ Finset.range k,
          cholLeft A N k j * cholLeft A N k j = cholLeft A N k j ^ 2 := by
        intro j _; ring
      rw [Finset.sum_congr rfl this]
      unfold cholRad
      ring
    · have hkk : cholLeft A N k k ≠ 0 := by
        rw [cholLeft_diag_rad A N hk]
        exact ne_of_gt (Real.sqrt_pos.mpr (hr k hk))
      rw [cholLeft_sub A N hlt hi, div_mul_cancel₀ _ hkk]
      ring
  intro i k hi hk
  rcases le_total k i with h | h
  · exact key i k h hi
  · rw [matMulT_symm, key k i h hk, hs i k hi hk]

/-- The Schur complement of the leading entry of `A`: the trailing block left
by one step of symmetric elimination, reindexed to start at `0`. -/
noncomputable def schurC (A : Mat) : Mat :=
  fun i k => A (i + 1) (k + 1) - A (i + 1) 0 * A (k + 1) 0 / A 0 0

theorem spd_diag0_pos (A : Mat) (N : ℕ) (hA : IsSPD A N) (hN : 0 < N) :
    0 < A 0 0 := by
  have e : quadForm A N (fun i => if i = 0 then 1 else 0) = A 0 0 := by
    unfold quadForm
    have outer : ∀ i ∈ Finset.range N, i ≠ 0 →
        (∑ k in Finset.range N, (if i = 0 then (1 : ℝ) else 0) * A i k *
          (if k = 0 then (1 : ℝ) else 0)) = 0 := by
      intro i _ hi
      apply Finset.sum_eq_zero
      intro k _
      rw [if_neg hi]
      ring
    rw [Finset.sum_eq_single_of_mem 0 (Finset.mem_range.mpr hN) outer]
    have inner : ∀ k ∈ Finset.range N, k ≠ 0 →
        (if (0 : ℕ) = 0 then (1 : ℝ) else 0) * A 0 k *
          (if k = 0 then (1 : ℝ) else 0) = 0 := by
      intro k _ hk
      rw [if_neg hk]
      ring
    rw [Finset.sum_eq_single_of_mem 0 (Finset.mem_range.mpr hN) inner]
    norm_num
  have h := hA.2 (fun i => if i = 0 then 1 else 0) ⟨0, hN, by norm_num⟩
  rw [e] at h
  exact h

/-- Positive definiteness passes to the Schur complement: the standard test
vector argument, with the leading coordinate chosen to cancel the border. -/
theorem schur_spd (A : Mat) (N : ℕ) (hA : IsSPD A (N + 1)) :
    IsSPD (schurC A) N := by
  obtain ⟨hsym, hpos⟩ := hA
  have h00 : 0 < A 0 0 := spd_diag0_pos A (N + 1) ⟨hsym, hpos⟩ (by omega)
  have hA00 : A 0 0 ≠ 0 := ne_of_gt h00
  constructor
  · intro i k hi hk
    unfold schurC
    rw [hsym (i + 1) (k + 1) (by omega) (by omega)]
    ring
  · intro x hx
    set t : ℝ := ∑ m in Finset.range N, x m * A (m + 1) 0 with ht
    set z : Vec := fun j => if j = 0 then -t / A 0 0 else x (j - 1) with hz
    obtain ⟨i0, hi0, hxi0⟩ := hx
    have hz0 : z 0 = -t / A 0 0 := by simp [hz]
    have hzs : ∀ j : ℕ, z (j + 1) = x j := by intro j; simp [hz]
    have hznz : ∃ j, j < N + 1 ∧ z j ≠ 0 := ⟨i0 + 1, by omega, by rw [hzs]; exact hxi0⟩
    have hq := hpos z hznz
    have inner1 : ∀ i : ℕ,
        (∑ k in Finset.range (N + 1), z i * A i k * z k)
          = (∑ k in Finset.range N, z i * A i (k + 1) * x k) + z i * A i 0 * z 0 := by
      intro i
      rw [Finset.sum_range_succ' (fun k => z i * A i k * z k) N]
      have hterm : ∀ k ∈ Finset.range N,
          z i * A i (k + 1) * z (k + 1) = z i * A i (k + 1) * x k := by
        intro k _
        rw [hzs k]
      rw [Finset.sum_congr rfl hterm]
    have outer : quadForm A (N + 1) z
        = (∑ i in Finset.range N,
            ((∑ k in Finset.range N, x i * A (i + 1) (k + 1) * x k)
              + x i * A (i + 1) 0 * z 0))
          + ((∑ k in Finset.range N, z 0 * A 0 (k + 1) * x k) + z 0 * A 0 0 * z 0) := by
      unfold quadForm
      rw [Finset.sum_range_succ'
        (fun i => ∑ k in Finset.range (N + 1), z i * A i k * z k) N]
      congr 1
      · apply Finset.sum_congr rfl
        intro i _
        rw [inner1 (i + 1)]
        simp only [hzs]
      · exact inner1 0
    have hsum1 : (∑ i in Finset.range N,
        ((∑ k in Finset.range N, x i * A (i + 1) (k + 1) * x k)
          + x i * A (i + 1) 0 * z 0))
        = (∑ i in Finset.range N, ∑ k in Finset.range N,
            x i * A (i + 1) (k + 1) * x k) + t * z 0 := by
      rw [Finset.sum_add_distrib]
      congr 1
      rw [← Finset.sum_mul, ht]
    have hsum2 : (∑ k in Finset.range N, z 0 * A 0 (k + 1) * x k) = z 0 * t := by
      have hc : ∀ k ∈ Finset.range N,
          z 0 * A 0 (k + 1) * x k = z 0 * (x k * A (k + 1) 0) := by
        intro k hk
        have hkN : k < N := Finset.mem_range.mp hk
        rw [hsym 0 (k + 1) (by omega) (by omega)]
        ring
      rw [Finset.sum_congr rfl hc, ← Finset.mul_sum, ht]
    have hB : quadForm (schurC A) N x
        = (∑ i in Finset.range N, ∑ k in Finset.range N,
            x i * A (i + 1) (k + 1) * x k) - t * t / A 0 0 := by
      unfold quadForm schurC
      have expand : ∀ i k : ℕ,
          x i * (A (i + 1) (k + 1) - A (i + 1) 0 * A (k + 1) 0 / A 0 0) * x k
            = x i * A (i + 1) (k + 1) * x k
              - x i * A (i + 1) 0 * (x k * A (k + 1) 0) / A 0 0 := by
        intro i k; ring
      simp only [expand]
      rw [Finset.sum_congr rfl (fun i _ => Finset.sum_sub_distrib),
        Finset.sum_sub_distrib]
      congr 1
      have inner2 : ∀ i ∈ Finset.range N,
          (∑ k in Finset.range N,
            x i * A (i + 1) 0 * (x k * A (k + 1) 0) / A 0 0)
            = x i * A (i + 1) 0 * t / A 0 0 := by
        intro i _
        rw [← Finset.sum_div, ← Finset.mul_sum, ht]
      rw [Finset.sum_congr rfl inner2, ← Finset.sum_div, ← Finset.sum_mul, ht]
    have heq : quadForm A (N + 1) z = quadForm (schurC A) N x := by
      rw [outer, hsum1, hsum2, hB, hz0]
      field_simp
      ring
    rw [← heq]
    exact hq

theorem cholLeft_diag0 (A : Mat) (N : ℕ) (hN : 0 < N) :
    cholLeft A N 0 0 = Real.sqrt (A 0 0) := by
  rw [cholLeft_diag A N hN]
  simp

theorem cholLeft_col0 (A : Mat) (N : ℕ) {i : ℕ} (hi0 : 0 < i) (hi : i < N) :
    cholLeft A N i 0 = A i 0 / Real.sqrt (A 0 0) := by
  rw [cholLeft_sub A N hi0 hi, cholLeft_diag0 A N (by omega)]
  simp

theorem cholLeft_col0_mul (A : Mat) (N : ℕ) (h0 : 0 < A 0 0) {i k : ℕ}
    (hi0 : 0 < i) (hi : i < N) (hk0 : 0 < k) (hk : k < N) :
    cholLeft A N i 0 * cholLeft A N k 0 = A i 0 * A k 0 / A 0 0 := by
  rw [cholLeft_col0 A N hi0 hi, cholLeft_col0 A N hk0 hk,
    div_mul_div_comm, Real.mul_self_sqrt (le_of_lt h0)]

/-- The factor of `A` below and right of the leading entry is the factor of
the Schur complement: the dimension-reduction step behind the induction. -/
theorem cholLeft_schur (A : Mat) (N : ℕ) (h0 : 0 < A 0 0) :
    ∀ k, k < N → ∀ i, i < N →
      cholLeft A (N + 1) (i + 1) (k + 1) = cholLeft (schurC A) N i k := by
  intro k
  induction k using Nat.strong_induction_on with
  | _ k ih =>
    intro hk i hi
    have hsum : ∀ i', i' < N →
        (∑ j in Finset.range (k + 1),
          cholLeft A (N + 1) (i' + 1) j * cholLeft A (N + 1) (k + 1) j)
        = (∑ j in Finset.range k,
            cholLeft (schurC A) N i' j * cholLeft (schurC A) N k j)
          + A (i' + 1) 0 * A (k + 1) 0 / A 0 0 := by
      intro i' hi'
      rw [Finset.sum_range_succ'
        (fun j => cholLeft A (N + 1) (i' + 1) j * cholLeft A (N + 1) (k + 1) j) k]
      have hterm : ∀ j ∈ Finset.range k,
          cholLeft A (N + 1) (i' + 1) (j + 1) * cholLeft A (N + 1) (k + 1) (j + 1)
            = cholLeft (schurC A) N i' j * cholLeft (schurC A) N k j := by
        intro j hj
        have hjk : j < k := Finset.mem_range.mp hj
        rw [ih j hjk (by omega) i' hi', ih j hjk (by omega) k hk]
      rw [Finset.sum_congr rfl hterm,
        cholLeft_col0_mul A (N + 1) h0 (by omega) (by omega) (by omega) (by omega)]
    have hdiag : cholLeft A (N + 1) (k + 1) (k + 1) = cholLeft (schurC A) N k k := by
      rw [cholLeft_diag A (N + 1) (by omega), cholLeft_diag (schurC A) N hk]
      congr 1
      have e1 : (∑ j in Finset.range (k + 1), cholLeft A (N + 1) (k + 1) j ^ 2)
          = ∑ j in Finset.range (k + 1),
              cholLeft A (N + 1) (k + 1) j * cholLeft A (N + 1) (k + 1) j :=
        Finset.sum_congr rfl fun j _ => pow_two _
      have e2 : (∑ j in Finset.range k, cholLeft (schurC A) N k j ^ 2)
          = ∑ j in Finset.range k,
              cholLeft (schurC A) N k j * cholLeft (schurC A) N k j :=
        Finset.sum_congr rfl fun j _ => pow_two _
      rw [e1, e2, hsum k hk]
      simp only [schurC]
      ring
    rcases lt_trichotomy i k with h | h | h
    · rw [cholLeft_upper A (N + 1) (by omega), cholLeft_upper (schurC A) N h]
    · rw [h]; exact hdiag
    · rw [cholLeft_sub A (N + 1) (by omega) (by omega),
        cholLeft_sub (schurC A) N h hi, hdiag, hsum i hi]
      simp only [schurC]
      ring

/-- The radicand shifts along with the factor. -/
theorem cholRad_schur (A : Mat) (N : ℕ) (h0 : 0 < A 0 0) {k : ℕ} (hk : k < N) :
    cholRad A (N + 1) (k + 1) = cholRad (schurC A) N k := by
  unfold cholRad
  rw [Finset.sum_range_succ' (fun j => cholLeft A (N + 1) (k + 1) j ^ 2) k]
  have hterm : ∀ j ∈ Finset.range k,
      cholLeft A (N + 1) (k + 1) (j + 1) ^ 2 = cholLeft (schurC A) N k j ^ 2 := by
    intro j hj
    have hjk : j < k := Finset.mem_range.mp hj
    rw [cholLeft_schur A N h0 j (by omega) k hk]
  rw [Finset.sum_congr rfl hterm]
  have hc0 : cholLeft A (N + 1) (k + 1) 0 ^ 2
      = A (k + 1) 0 * A (k + 1) 0 / A 0 0 := by
    rw [pow_two]
    exact cholLeft_col0_mul A (N + 1) h0 (by omega) (by omega) (by omega) (by omega)
  rw [hc0]
  simp only [schurC]
  ring

/-- Positive definiteness makes every radicand of `chol_left` positive: the
reason the algorithm never meets a negative square root on SPD input. -/
theorem spd_rad_pos : ∀ N : ℕ, ∀ A : Mat, IsSPD A N →
    ∀ k, k < N → 0 < cholRad A N k := by
  intro N
  induction N with
  | zero => intro A _ k hk; omega
  | succ n ih =>
    intro A hA k hk
    have h00 : 0 < A 0 0 := spd_diag0_pos A (n + 1) hA (by omega)
    cases k with
    | zero =>
      unfold cholRad
      simpa using h00
    | succ j =>
      rw [cholRad_schur A n h00 (by omega)]
      exact ih (schurC A) (schur_spd A n hA) j (by omega)

theorem spd_diag_pos (A : Mat) (N : ℕ) (hA : IsSPD A N) {k : ℕ} (hk : k < N) :
    0 < cholLeft A N k k := by
  rw [cholLeft_diag_rad A N hk]
  exact Real.sqrt_pos.mpr (spd_rad_pos N A hA k hk)

theorem spd_factorizes (A : Mat) (N : ℕ) (hA : IsSPD A N) :
    ∀ i k, i < N → k < N → matMulT (cholLeft A N) N i k = A i k :=
  cholLeft_factorizes A N hA.1 (spd_rad_pos N A hA)

/-- First `n` components of the forward-substitution solution of `L x = b`.
This models the external triangular-solve primitive (`la.solve` applied by
`chol_up` to the lower-triangular leading block; on a nonsingular triangular
system the general dense solver returns exactly this recurrence). -/
noncomputable def forwardSubAux (L : Mat) (b : Vec) : ℕ → Vec
  | 0 => fun _ => 0
  | n + 1 => fun i =>
      if i = n then
        (b n - ∑ m in Finset.range n, L n m * forwardSubAux L b n m) / L n n
      else forwardSubAux L b n i

/-- The forward-substitution solution of the triangular system `L x = b`. -/
noncomputable def forwardSub (L : Mat) (b : Vec) : Vec :=
  fun j => forwardSubAux L b (j + 1) j

theorem forwardSubAux_stable (L : Mat) (b : Vec) :
    ∀ n i, i < n → forwardSubAux L b n i = forwardSub L b i := by
  intro n
  induction n with
  | zero => intro i hi; omega
  | succ n ih =>
    intro i hi
    by_cases h : i = n
    · subst h; rfl
    · have hin : i < n := by omega
      show forwardSubAux L b (n + 1) i = forwardSub L b i
      simp only [forwardSubAux]
      rw [if_neg h]
      exact ih i hin

/-- The defining recurrence of forward substitution. -/
theorem forwardSub_eq (L : Mat) (b : Vec) (j : ℕ) :
    forwardSub L b j
      = (b j - ∑ m in Finset.range j, L j m * forwardSub L b m) / L j j := by
  show forwardSubAux L b (j + 1) j = _
  simp only [forwardSubAux, if_true, eq_self_iff_true]
  congr 2
  exact Finset.sum_congr rfl fun m hm => by
    rw [forwardSubAux_stable L b j m (Finset.mem_range.mp hm)]

/-- One iteration of the row loop of `chol_up`: the first `k` entries of row
`k` are the triangular solve `la.solve(L[:k, :k], A[:k, k])`, and then
`L[k, k] = np.sqrt(A[k, k] - L[k, :k] @ L[k, :k])` with the freshly written
row. -/
noncomputable def cholUpStep (A : Mat) (L : Mat) (k : ℕ) : Mat :=
  fun i m =>
    if i = k ∧ m < k then forwardSub L (fun j => A j k) m
    else if i = k ∧ m = k then
      Real.sqrt (A k k -
        ∑ j in Finset.range k, forwardSub L (fun j => A j k) j ^ 2)
    else L i m

/-- `chol_up(A, lower=True)`: the up-looking factorization. -/
noncomputable def cholUp (A : Mat) (N : ℕ) : Mat :=
  (List.range N).foldl (cholUpStep A) (fun _ _ => 0)

theorem cholUp_partial_eq (A : Mat) (N : ℕ) (hs : IsSymm A N) :
    ∀ n, n ≤ N → ∀ i m,
      ((List.range n).foldl (cholUpStep A) (fun _ _ => 0)) i m
        = if i < n ∧ m ≤ i then cholLeft A N i m else 0 := by
  intro n
  induction n with
  | zero =>
    intro _ i m
    have h : ¬ (i < 0 ∧ m ≤ i) := by omega
    rw [if_neg h]
    rfl
  | succ n ih =>
    intro hn i m
    have hnN : n < N := by omega
    rw [List.range_succ, List.foldl_append]
    set P : Mat := (List.range n).foldl (cholUpStep A) (fun _ _ => 0) with hP
    have hrow : ∀ m', m' < n →
        forwardSub P (fun j => A j n) m' = cholLeft A N n m' := by
      intro m'
      induction m' using Nat.strong_induction_on with
      | _ m' ihm =>
        intro hm'
        rw [forwardSub_eq, cholLeft_sub A N hm' hnN,
          hs m' n (by omega) (by omega)]
        have hdm : P m' m' = cholLeft A N m' m' := by
          rw [ih (by omega) m' m', if_pos ⟨hm', le_rfl⟩]
        have hterm : ∀ l ∈ Finset.range m',
            P m' l * forwardSub P (fun j => A j n) l
              = cholLeft A N n l * cholLeft A N m' l := by
          intro l hl
          have hlm : l < m' := Finset.mem_range.mp hl
          rw [ihm l hlm (by omega), ih (by omega) m' l,
            if_pos ⟨hm', by omega⟩]
          ring
        rw [hdm, Finset.sum_congr rfl hterm]
    show cholUpStep A P n i m = _
    unfold cholUpStep
    by_cases h1 : i = n ∧ m < n
    · obtain ⟨rfl, hmn⟩ := h1
      rw [if_pos ⟨rfl, hmn⟩, hrow m hmn, if_pos (by omega)]
    · rw [if_neg h1]
      by_cases h2 : i = n ∧ m = n
      · rw [if_pos h2, if_pos (by omega)]
        obtain ⟨rfl, rfl⟩ := h2
        rw [cholLeft_diag A N hnN]
        congr 2
        exact Finset.sum_congr rfl fun j hj => by
          rw [hrow j (Finset.mem_range.mp hj)]
      · rw [if_neg h2, ih (by omega) i m]
        by_cases h3 : i < n ∧ m ≤ i
        · rw [if_pos h3, if_pos (by omega)]
        · rw [if_neg h3, if_neg (by omega)]

/-- On a symmetric input the up-looking and left-looking factorizations agree
on the whole block. -/
theorem cholUp_eq_cholLeft (A : Mat) (N : ℕ) (hs : IsSymm A N) :
    ∀ i m, i < N → m < N → cholUp A N i m = cholLeft A N i m := by
  intro i m hi hm
  rw [cholUp, cholUp_partial_eq A N hs N le_rfl i m]
  by_cases h : i < N ∧ m ≤ i
  · rw [if_pos h]
  · rw [if_neg h]
    have him : i < m := by omega
    rw [cholLeft_upper A N him]

/-- One iteration of `chol_left_amp`: the accumulator starts as column `k` of
`A` and subtracts `L[k:, j] * L[k, j]` for exactly the indices `j` where the
current row `L[k]` is nonzero (`np.argwhere(L[k])` scans the whole row), then
`L[k,k] = np.sqrt(a[k])` and `L[k+1:, k] = a[k+1:] / L[k, k]`. -/
noncomputable def cholAmpStep (A : Mat) (N : ℕ) (L : Mat) (k : ℕ) : Mat :=
  fun i m =>
    if m = k ∧ i = k then
      Real.sqrt (A k k -
        ∑ j in (Finset.range N).filter (fun j => L k j ≠ 0), L k j * L k j)
    else if m = k ∧ k < i ∧ i < N then
      (A i k -
        ∑ j in (Finset.range N).filter (fun j => L k j ≠ 0), L i j * L k j) /
        Real.sqrt (A k k -
          ∑ j in (Finset.range N).filter (fun j => L k j ≠ 0), L k j * L k j)
    else L i m

/-- `chol_left_amp(A, lower=True)`: the sparsity-restricted left-looking
factorization. -/
noncomputable def cholLeftAmp (A : Mat) (N : ℕ) : Mat :=
  (List.range N).foldl (cholAmpStep A N) (fun _ _ => 0)

theorem cholLeftAmp_partial_eq (A : Mat) (N : ℕ) :
    ∀ n, n ≤ N →
      (List.range n).foldl (cholAmpStep A N) (fun _ _ => 0) = cholPartial A N n := by
  intro n
  induction n with
  | zero => intro _; rfl
  | succ n ih =>
    intro hn
    rw [List.range_succ, List.foldl_append, ih (by omega), cholPartial_succ]
    funext i m
    have hfil : ∀ i' : ℕ,
        (∑ j in (Finset.range N).filter (fun j => cholPartial A N n n j ≠ 0),
            cholPartial A N n i' j * cholPartial A N n n j)
          = ∑ j in Finset.range n, cholPartial A N n i' j * cholPartial A N n n j := by
      intro i'
      have hsub : ∀ x ∈ Finset.range N,
          cholPartial A N n i' x * cholPartial A N n n x ≠ 0 →
            cholPartial A N n n x ≠ 0 := by
        intro j _ hf h0
        exact hf (by rw [h0, mul_zero])
      rw [Finset.sum_filter_of_ne hsub]
      refine (Finset.sum_subset (Finset.range_subset.mpr (by omega)) ?_).symm
      intro j hj hnj
      have h1 : n ≤ j := by
        have h2 := Finset.mem_range.mp hj
        by_contra hc
        exact hnj (Finset.mem_range.mpr (by omega))
      rw [cholPartial_zero_entry A N n n j (Or.inl h1), mul_zero]
    show cholAmpStep A N (cholPartial A N n) n i m
        = cholStep A N (cholPartial A N n) n i m
    unfold cholAmpStep cholStep
    have hd : Real.sqrt (A n n -
        ∑ j in (Finset.range N).filter (fun j => cholPartial A N n n j ≠ 0),
          cholPartial A N n n j * cholPartial A N n n j)
        = Real.sqrt (A n n - ∑ j in Finset.range n, cholPartial A N n n j ^ 2) := by
      rw [hfil n]
      congr 2
      exact Finset.sum_congr rfl fun j _ => (pow_two _).symm
    by_cases h1 : m = n ∧ i = n
    · rw [if_pos h1, if_pos h1, hd]
    · rw [if_neg h1, if_neg h1]
      by_cases h2 : m = n ∧ n < i ∧ i < N
      · rw [if_pos h2, if_pos h2, hd, hfil i]
      · rw [if_neg h2, if_neg h2]

/-- On any input the sparsity-restricted variant coincides with the plain
left-looking factorization: skipped indices contribute zero terms. -/
theorem cholLeftAmp_eq_cholLeft (A : Mat) (N : ℕ) :
    cholLeftAmp A N = cholLeft A N :=
  cholLeftAmp_partial_eq A N N le_rfl

theorem cholPartial_row_ge (A : Mat) (N : ℕ) :
    ∀ k' i m, k' ≤ N → N ≤ i → cholPartial A N k' i m = 0 := by
  intro k'
  induction k' with
  | zero => intro i m _ _; rfl
  | succ n ih =>
    intro i m hn hi
    rw [cholPartial_succ]
    unfold cholStep
    have h1 : ¬ (m = n ∧ i = n) := by rintro ⟨_, rfl⟩; omega
    have h2 : ¬ (m = n ∧ n < i ∧ i < N) := by rintro ⟨_, _, h⟩; omega
    rw [if_neg h1, if_neg h2]
    exact ih i m (by omega) hi

theorem cholLeft_row_ge (A : Mat) (N : ℕ) {i : ℕ} (m : ℕ) (hi : N ≤ i) :
    cholLeft A N i m = 0 :=
  cholPartial_row_ge A N N i m le_rfl hi

/-- One iteration of `chol_right`, acting on the pair (working copy of `A`,
factor built so far): `L[k,k] = np.sqrt(A[k,k])`, `L[k+1:,k] = A[k+1:,k] /
L[k,k]`, then `A[k+1:, k+1:] -= L[k+1:,[k]] @ L[k+1:,[k]].T`. -/
noncomputable def cholRightStep (N : ℕ) (s : Mat × Mat) (k : ℕ) : Mat × Mat :=
  let L' : Mat := fun i m =>
    if m = k ∧ i = k then Real.sqrt (s.1 k k)
    else if m = k ∧ k < i ∧ i < N then s.1 i k / Real.sqrt (s.1 k k)
    else s.2 i m
  (fun i m =>
    if k < i ∧ i < N ∧ k < m ∧ m < N then s.1 i m - L' i k * L' m k
    else s.1 i m,
   L')

/-- `chol_right(A, lower=True)`: the right-looking in-place factorization,
started on a fresh working copy of `A` and a zero factor. -/
noncomputable def cholRight (A : Mat) (N : ℕ) : Mat :=
  ((List.range N).foldl (cholRightStep N) (A, fun _ _ => 0)).2

theorem cholRight_invariant (A : Mat) (N : ℕ) :
    ∀ n, n ≤ N →
      (∀ i m, ((List.range n).foldl (cholRightStep N) (A, fun _ _ => 0)).2 i m
          = if m < n then cholLeft A N i m else 0)
      ∧ (∀ i m, n ≤ i → i < N → n ≤ m → m < N →
          ((List.range n).foldl (cholRightStep N) (A, fun _ _ => 0)).1 i m
            = A i m - ∑ j in Finset.range n, cholLeft A N i j * cholLeft A N m j) := by
  intro n
  induction n with
  | zero =>
    intro _
    constructor
    · intro i m; rfl
    · intro i m _ _ _ _; simp
  | succ n ih =>
    intro hn
    obtain ⟨ihL, ihA⟩ := ih (by omega)
    have hnN : n < N := by omega
    rw [List.range_succ, List.foldl_append]
    set s : Mat × Mat := (List.range n).foldl (cholRightStep N) (A, fun _ _ => 0)
      with hs
    have hdiagA : s.1 n n = A n n - ∑ j in Finset.range n,
        cholLeft A N n j * cholLeft A N n j := ihA n n le_rfl hnN le_rfl hnN
    have hdiag : Real.sqrt (s.1 n n) = cholLeft A N n n := by
      rw [hdiagA, cholLeft_diag A N hnN]
      congr 2
      exact Finset.sum_congr rfl fun j _ => (pow_two _).symm
    have hcol : ∀ i, n < i → i < N → s.1 i n / Real.sqrt (s.1 n n)
        = cholLeft A N i n := by
      intro i hni hi
      rw [ihA i n (by omega) hi le_rfl hnN, hdiag, cholLeft_sub A N hni hi]
    have hL' : ∀ i m, (cholRightStep N s n).2 i m
        = if m < n + 1 then cholLeft A N i m else 0 := by
      intro i m
      show (if m = n ∧ i = n then Real.sqrt (s.1 n n)
        else if m = n ∧ n < i ∧ i < N then s.1 i n / Real.sqrt (s.1 n n)
        else s.2 i m) = _
      by_cases h1 : m = n ∧ i = n
      · obtain ⟨rfl, rfl⟩ := h1
        rw [if_pos ⟨rfl, rfl⟩, if_pos (by omega), hdiag]
      · rw [if_neg h1]
        by_cases h2 : m = n ∧ n < i ∧ i < N
        · obtain ⟨rfl, hni, hi⟩ := h2
          rw [if_pos ⟨rfl, hni, hi⟩, if_pos (by omega), hcol i hni hi]
        · rw [if_neg h2, ihL i m]
          by_cases h3 : m < n
          · rw [if_pos h3, if_pos (by omega)]
          · rw [if_neg h3]
            by_cases h4 : m < n + 1
            · have hmn : m = n := by omega
              rw [if_pos h4]
              rcases lt_trichotomy i m with h | h | h
              · rw [cholLeft_upper A N h]
              · exact absurd ⟨hmn, by omega⟩ h1
              · have hiN : N ≤ i := by
                  by_contra hc
                  exact h2 ⟨hmn, by omega, by omega⟩
                rw [cholLeft_row_ge A N m hiN]
            · rw [if_neg h4]
    refine ⟨hL', ?_⟩
    intro i m hni hi hnm hm
    show (if n < i ∧ i < N ∧ n < m ∧ m < N then
        s.1 i m - (cholRightStep N s n).2 i n * (cholRightStep N s n).2 m n
      else s.1 i m) = _
    rw [if_pos ⟨by omega, hi, by omega, hm⟩, hL' i n, hL' m n,
      if_pos (by omega), if_pos (by omega),
      ihA i m (by omega) hi (by omega) hm, Finset.sum_range_succ]
    ring

/-- The right-looking factorization agrees with the left-looking one on the
whole block, for every input. -/
theorem cholRight_eq_cholLeft (A : Mat) (N : ℕ) :
    ∀ i m, m < N → cholRight A N i m = cholLeft A N i m := by
  intro i m hm
  rw [cholRight, (cholRight_invariant A N N le_rfl).1 i m, if_pos hm]

/-- One block of `chol_super`, spanning columns `[k1, k1 + s)`.  The diagonal
block `A[k,k] - L[k,:k1] @ L[k,:k1].T` is factored by the external dense
routine `la.cholesky(...).T` (modelled by the left-looking factorization,
which computes the same lower factor), and the rows below the block are
assigned `(A[k2:,k] - L[k2:,:k1] @ L[k,:k1].T) / L[k,k].T`.  The division is
the numpy ELEMENTWISE `/` of the source, not a triangular solve: a size-one
block broadcasts its single entry over the column, and a block of size `s`
divides the entry at row offset `r` and column offset `q` by entry `(r, q)`
of the transposed block factor. -/
noncomputable def cholSuperBlock (A : Mat) (N : ℕ) (L : Mat) (k1 s : ℕ) : Mat :=
  fun i m =>
    if k1 ≤ m ∧ m < k1 + s then
      (if k1 ≤ i ∧ i < k1 + s then
        cholLeft (fun p q =>
          A (k1 + p) (k1 + q) -
            ∑ j in Finset.range k1, L (k1 + p) j * L (k1 + q) j) s
          (i - k1) (m - k1)
       else if k1 + s ≤ i ∧ i < N then
        (A i m - ∑ j in Finset.range k1, L i j * L m j) /
          (if s = 1 then
            cholLeft (fun p q =>
              A (k1 + p) (k1 + q) -
                ∑ j in Finset.range k1, L (k1 + p) j * L (k1 + q) j) s 0 0
           else
            cholLeft (fun p q =>
              A (k1 + p) (k1 + q) -
                ∑ j in Finset.range k1, L (k1 + p) j * L (k1 + q) j) s
              (m - k1) (i - (k1 + s)))
       else L i m)
    else L i m

/-- The block loop of `chol_super`: folds the blocks over the factor being
built, tracking the first column `k1` of the current block. -/
noncomputable def cholSuperRun (A : Mat) (N : ℕ) : List ℕ → ℕ → Mat → Mat
  | [], _, L => L
  | s :: rest, k1, L => cholSuperRun A N rest (k1 + s) (cholSuperBlock A N L k1 s)

/-- `chol_super(A, s, lower=True)`: the leading asserts validate the
partition (`np.sum(s) == N` and `np.all(s > 0)`, the InvalidPartition error
of the specification) before any factor data is touched; only then does the
block loop run. -/
noncomputable def cholSuper (A : Mat) (N : ℕ) (s : List ℤ) : Option Mat :=
  if s.sum = (N : ℤ) ∧ ∀ x ∈ s, 0 < x then
    some (cholSuperRun A N (s.map Int.toNat) 0 (fun _ _ => 0))
  else none

/-- A size-one supernode step is exactly one left-looking column step. -/
theorem cholSuperBlock_one (A : Mat) (N : ℕ) (k1 : ℕ) :
    cholSuperBlock A N (cholPartial A N k1) k1 1
      = cholStep A N (cholPartial A N k1) k1 := by
  funext i m
  unfold cholSuperBlock cholStep
  set P : Mat := cholPartial A N k1 with hP
  have hB : cholLeft (fun p q =>
      A (k1 + p) (k1 + q) - ∑ j in Finset.range k1, P (k1 + p) j * P (k1 + q) j) 1 0 0
      = Real.sqrt (A k1 k1 - ∑ j in Finset.range k1, P k1 j ^ 2) := by
    rw [cholLeft_diag _ 1 (by omega)]
    simp only [Finset.range_zero, Finset.sum_empty, sub_zero, Nat.add_zero]
    congr 2
    exact Finset.sum_congr rfl fun j _ => (pow_two _).symm
  by_cases h1 : k1 ≤ m ∧ m < k1 + 1
  · have hm : m = k1 := by omega
    rw [if_pos h1]
    by_cases h2 : k1 ≤ i ∧ i < k1 + 1
    · have hi : i = k1 := by omega
      rw [if_pos h2, show i - k1 = 0 by omega, show m - k1 = 0 by omega, hB,
        if_pos ⟨hm, hi⟩]
    · rw [if_neg h2]
      by_cases h3 : k1 + 1 ≤ i ∧ i < N
      · have hik : i ≠ k1 := by omega
        rw [if_pos h3, if_pos rfl, hB,
          if_neg (show ¬ (m = k1 ∧ i = k1) by rintro ⟨_, h⟩; exact hik h),
          if_pos ⟨hm, by omega, h3.2⟩, hm]
      · rw [if_neg h3,
          if_neg (show ¬ (m = k1 ∧ i = k1) by rintro ⟨_, h⟩; exact h2 ⟨le_of_eq h.symm, by omega⟩),
          if_neg (show ¬ (m = k1 ∧ k1 < i ∧ i < N) by
            rintro ⟨_, hlt, hN⟩; exact h3 ⟨by omega, hN⟩)]
  · have hm : m ≠ k1 := by omega
    rw [if_neg h1, if_neg (show ¬ (m = k1 ∧ i = k1) by rintro ⟨h, _⟩; exact hm h),
      if_neg (show ¬ (m = k1 ∧ k1 < i ∧ i < N) by rintro ⟨h, _⟩; exact hm h)]

/-- Running the block loop on an all-ones partition reproduces the
left-looking column loop. -/
theorem cholSuperRun_ones (A : Mat) (N : ℕ) :
    ∀ c k1, cholSuperRun A N (List.replicate c 1) k1 (cholPartial A N k1)
      = cholPartial A N (k1 + c) := by
  intro c
  induction c with
  | zero => intro k1; rfl
  | succ c ih =>
    intro k1
    rw [List.replicate_succ]
    show cholSuperRun A N (List.replicate c 1) (k1 + 1)
      (cholSuperBlock A N (cholPartial A N k1) k1 1) = _
    rw [cholSuperBlock_one, ← cholPartial_succ, ih (k1 + 1),
      show k1 + 1 + c = k1 + (c + 1) by omega]

/-- `chol_super` with the all-ones partition: the asserts accept it and the
result is exactly the left-looking factor. -/
theorem cholSuper_ones (A : Mat) (N : ℕ) :
    cholSuper A N (List.replicate N 1)
      = some (cholSuperRun A N (List.replicate N 1) 0 (fun _ _ => 0))
    ∧ cholSuperRun A N (List.replicate N 1) 0 (fun _ _ => 0) = cholLeft A N := by
  constructor
  · have hvalid : (List.replicate N (1 : ℤ)).sum = (N : ℤ) ∧
        ∀ x ∈ List.replicate N (1 : ℤ), 0 < x := by
      constructor
      · simp
      · intro x hx
        rw [List.eq_of_mem_replicate hx]
        omega
    unfold cholSuper
    rw [if_pos hvalid, List.map_replicate]
    rfl
  · show cholSuperRun A N (List.replicate N 1) 0 (cholPartial A N 0) = cholLeft A N
    rw [cholSuperRun_ones A N N 0, Nat.zero_add]
    rfl

/-- The scalar `α = w[j] / L[j,j]` of the rotation recurrences, computed from
the running state `(L, w, β)`. -/
noncomputable def upAlpha (s : Mat × Vec × ℝ) (j : ℕ) : ℝ := s.2.1 j / s.1 j j

/-- `β2 = np.sqrt(β**2 + α**2)` of `chol_update`. -/
noncomputable def upBeta2 (s : Mat × Vec × ℝ) (j : ℕ) : ℝ :=
  Real.sqrt (s.2.2 ^ 2 + upAlpha s j ^ 2)

/-- `γ = α / (β2 * β)` of `chol_update`. -/
noncomputable def upGamma (s : Mat × Vec × ℝ) (j : ℕ) : ℝ :=
  upAlpha s j / (upBeta2 s j * s.2.2)

/-- `δ = β / β2` of `chol_update`. -/
noncomputable def upDelta (s : Mat × Vec × ℝ) (j : ℕ) : ℝ := s.2.2 / upBeta2 s j

/-- One iteration of the column loop of `chol_update` on the state
`(L, w, β)`: the diagonal and the subdiagonal part of column `j` are rotated,
`w[j]` records `α`, the suffix of `w` is updated with the PRE-update column
(the source copies `w1` before changing `w`), and `β` advances to `β2`. -/
noncomputable def updateStep (N : ℕ) (s : Mat × Vec × ℝ) (j : ℕ) :
    Mat × Vec × ℝ :=
  (fun i m =>
    if m = j ∧ i = j then upDelta s j * s.1 j j + upGamma s j * s.2.1 j
    else if m = j ∧ j < i ∧ i < N then upDelta s j * s.1 i j + upGamma s j * s.2.1 i
    else s.1 i m,
   fun i =>
    if i = j then upAlpha s j
    else if j < i ∧ i < N then s.2.1 i - upAlpha s j * s.1 i j
    else s.2.1 i,
   upBeta2 s j)

/-- The state of `chol_update` after its loop has processed columns
`0 .. j-1`, starting from the copies of the arguments and `β = 1`. -/
noncomputable def upState (N : ℕ) (L : Mat) (w : Vec) (j : ℕ) : Mat × Vec × ℝ :=
  (List.range j).foldl (updateStep N) (L, w, 1)

/-- `chol_update(L, w)`: the full run of the loop; returns the updated factor
and the transformed vector. -/
noncomputable def cholUpdate (N : ℕ) (L : Mat) (w : Vec) : Mat × Vec :=
  ((upState N L w N).1, (upState N L w N).2.1)

/-- `β2 = np.sqrt(β**2 - α**2)` of `chol_downdate`. -/
noncomputable def ddBeta2 (s : Mat × Vec × ℝ) (j : ℕ) : ℝ :=
  Real.sqrt (s.2.2 ^ 2 - upAlpha s j ^ 2)

/-- `γ = α / (β2 * β)` of `chol_downdate`. -/
noncomputable def ddGamma (s : Mat × Vec × ℝ) (j : ℕ) : ℝ :=
  upAlpha s j / (ddBeta2 s j * s.2.2)

/-- `δ = β2 / β` of `chol_downdate`. -/
noncomputable def ddDelta (s : Mat × Vec × ℝ) (j : ℕ) : ℝ := ddBeta2 s j / s.2.2

/-- One iteration of the column loop of `chol_downdate`, without the
positive-definiteness check: the diagonal is scaled by `δ`, the suffix of `w`
is updated FIRST and the subdiagonal part of column `j` then uses the updated
`w` (the source has no copy here, unlike `chol_update`). -/
noncomputable def downdateStep (N : ℕ) (s : Mat × Vec × ℝ) (j : ℕ) :
    Mat × Vec × ℝ :=
  (fun i m =>
    if m = j ∧ i = j then ddDelta s j * s.1 j j
    else if m = j ∧ j < i ∧ i < N then
      ddDelta s j * s.1 i j - ddGamma s j * (s.2.1 i - upAlpha s j * s.1 i j)
    else s.1 i m,
   fun i =>
    if i = j then upAlpha s j
    else if j < i ∧ i < N then s.2.1 i - upAlpha s j * s.1 i j
    else s.2.1 i,
   ddBeta2 s j)

/-- The state the downdate recurrence reaches after `j` (unchecked) steps. -/
noncomputable def ddState (N : ℕ) (L : Mat) (w : Vec) (j : ℕ) : Mat × Vec × ℝ :=
  (List.range j).foldl (downdateStep N) (L, w, 1)

/-- The per-column precondition of `chol_downdate` at column `j`: with the
state reached there, `α**2 < β**2` (the source raises otherwise). -/
def ddOK1 (s : Mat × Vec × ℝ) (j : ℕ) : Prop := upAlpha s j ^ 2 < s.2.2 ^ 2

/-- Every column of the downdate satisfies its precondition. -/
def downdateOK (N : ℕ) (L : Mat) (w : Vec) : Prop :=
  ∀ j, j < N → ddOK1 (ddState N L w j) j

/-- The factor and vector produced by a downdate whose checks all pass. -/
noncomputable def downdateRun (N : ℕ) (L : Mat) (w : Vec) : Mat × Vec :=
  ((ddState N L w N).1, (ddState N L w N).2.1)

/-- The loop of `chol_downdate` from column `j` on state `s`: before touching
column `j` it tests `α**2 >= β**2` and raises (`none`) on violation, so a
failing call returns no factor data at all and the array of the caller is
never replaced. -/
noncomputable def downdateLoop (N : ℕ) : ℕ → Mat × Vec × ℝ → Option (Mat × Vec × ℝ)
  | j, s =>
    if h : j < N then
      if upAlpha s j ^ 2 ≥ s.2.2 ^ 2 then none
      else downdateLoop N (j + 1) (downdateStep N s j)
    else some s
termination_by j _ => N - j
decreasing_by omega

/-- `chol_downdate(L, w)`: `some` of the updated factor and vector, or `none`
for the `ValueError` (`NotPositiveDefinite`) raise. -/
noncomputable def cholDowndate (N : ℕ) (L : Mat) (w : Vec) : Option (Mat × Vec) :=
  (downdateLoop N 0 (L, w, 1)).map fun s => (s.1, s.2.1)

/-- One iteration of the column loop of `chol_updown`, with the direction
sign `σ` folded into `β2 = np.sqrt(β**2 + σ * α**2)` and
`γ = σ * α / (β2 * β)`: the `update` branch mirrors `chol_update` (with a
saved copy of the `w` suffix), the other branch mirrors `chol_downdate`
(without any check). -/
noncomputable def updownStep (N : ℕ) (upd : Bool) (s : Mat × Vec × ℝ) (k : ℕ) :
    Mat × Vec × ℝ :=
  if upd then
    (fun i m =>
      if m = k ∧ i = k then
        s.2.2 / Real.sqrt (s.2.2 ^ 2 + 1 * upAlpha s k ^ 2) * s.1 k k
          + 1 * upAlpha s k / (Real.sqrt (s.2.2 ^ 2 + 1 * upAlpha s k ^ 2) * s.2.2)
            * s.2.1 k
      else if m = k ∧ k < i ∧ i < N then
        s.2.2 / Real.sqrt (s.2.2 ^ 2 + 1 * upAlpha s k ^ 2) * s.1 i k
          + 1 * upAlpha s k / (Real.sqrt (s.2.2 ^ 2 + 1 * upAlpha s k ^ 2) * s.2.2)
            * s.2.1 i
      else s.1 i m,
     fun i =>
      if i = k then upAlpha s k
      else if k < i ∧ i < N then s.2.1 i - upAlpha s k * s.1 i k
      else s.2.1 i,
     Real.sqrt (s.2.2 ^ 2 + 1 * upAlpha s k ^ 2))
  else
    (fun i m =>
      if m = k ∧ i = k then
        Real.sqrt (s.2.2 ^ 2 + (-1) * upAlpha s k ^ 2) / s.2.2 * s.1 k k
      else if m = k ∧ k < i ∧ i < N then
        Real.sqrt (s.2.2 ^ 2 + (-1) * upAlpha s k ^ 2) / s.2.2 * s.1 i k
          + (-1) * upAlpha s k
              / (Real.sqrt (s.2.2 ^ 2 + (-1) * upAlpha s k ^ 2) * s.2.2)
            * (s.2.1 i - upAlpha s k * s.1 i k)
      else s.1 i m,
     fun i =>
      if i = k then upAlpha s k
      else if k < i ∧ i < N then s.2.1 i - upAlpha s k * s.1 i k
      else s.2.1 i,
     Real.sqrt (s.2.2 ^ 2 + (-1) * upAlpha s k ^ 2))

/-- `chol_updown(L, w, update)`: the special-cased `N == 1` branch computes
`np.sqrt(L*L.T + σ*w*w.T)` directly and returns `w` as it came in; otherwise
the column loop runs with the direction sign. -/
noncomputable def cholUpdown (N : ℕ) (L : Mat) (w : Vec) (upd : Bool) :
    Mat × Vec :=
  if N = 1 then
    (fun i m =>
      if i = 0 ∧ m = 0 then
        Real.sqrt (L 0 0 * L 0 0 + (if upd then 1 else -1) * (w 0 * w 0))
      else L i m,
     w)
  else
    (((List.range N).foldl (updownStep N upd) (L, w, 1)).1,
     ((List.range N).foldl (updownStep N upd) (L, w, 1)).2.1)

theorem upState_succ (N : ℕ) (L : Mat) (w : Vec) (j : ℕ) :
    upState N L w (j + 1) = updateStep N (upState N L w j) j := by
  unfold upState
  rw [List.range_succ, List.foldl_append]
  rfl

theorem ddState_succ (N : ℕ) (L : Mat) (w : Vec) (j : ℕ) :
    ddState N L w (j + 1) = downdateStep N (ddState N L w j) j := by
  unfold ddState
  rw [List.range_succ, List.foldl_append]
  rfl

theorem rot_comb_up (b b2 a x y : ℝ) (hb : b ≠ 0) (hb2 : b2 ≠ 0) :
    b / b2 * x + a / (b2 * b) * y = (b ^ 2 * x + a * y) / (b2 * b) := by
  field_simp
  ring

theorem rot_comb_dd (b b2 a x y : ℝ) (hb : b ≠ 0) (hb2 : b2 ≠ 0)
    (hsq : b2 ^ 2 = b ^ 2 - a ^ 2) :
    b2 / b * x - a / (b2 * b) * (y - a * x) = (b ^ 2 * x - a * y) / (b2 * b) := by
  field_simp
  linear_combination (b2 * x * b ^ 2) * hsq

theorem rot_up_diag_val (t a b b2 : ℝ) (hb : b ≠ 0) (hb2 : b2 ≠ 0)
    (hsq : b2 ^ 2 = b ^ 2 + a ^ 2) :
    (b ^ 2 * t + a * (a * t)) / (b2 * b) = t * b2 / b := by
  field_simp
  linear_combination (-(b * t)) * hsq

theorem rot_up_diag2 (t a b b2 : ℝ) (hb : b ≠ 0) (hb2 : b2 ≠ 0)
    (hsq : b2 ^ 2 = b ^ 2 + a ^ 2) :
    ((b ^ 2 * t + a * (a * t)) / (b2 * b)) ^ 2 = t ^ 2 + (a * t) ^ 2 / b ^ 2 := by
  field_simp
  linear_combination (-(b ^ 2 * t ^ 2 * (a ^ 2 + b ^ 2))) * hsq

theorem rot_up_offdiag2 (t a b b2 lkj wk : ℝ) (hb : b ≠ 0) (hb2 : b2 ≠ 0)
    (hsq : b2 ^ 2 = b ^ 2 + a ^ 2) :
    ((b ^ 2 * t + a * (a * t)) / (b2 * b)) * ((b ^ 2 * lkj + a * wk) / (b2 * b))
      = t * lkj + a * t * wk / b ^ 2 := by
  field_simp
  linear_combination (-(b ^ 2 * t * (a * wk + b ^ 2 * lkj))) * hsq

theorem rot_up_gen2 (a b b2 lij lkj wi wk : ℝ) (hb : b ≠ 0) (hb2 : b2 ≠ 0)
    (hsq : b2 ^ 2 = b ^ 2 + a ^ 2) :
    ((b ^ 2 * lij + a * wi) / (b2 * b)) * ((b ^ 2 * lkj + a * wk) / (b2 * b))
      + (wi - a * lij) * (wk - a * lkj) / b2 ^ 2
      = lij * lkj + wi * wk / b ^ 2 := by
  field_simp
  linear_combination (-(b2 ^ 2 * (b ^ 2 * wi * wk + b ^ 4 * lij * lkj))) * hsq

theorem rot_dd_diag (t a b b2 : ℝ) (hb : b ≠ 0)
    (hsq : b2 ^ 2 = b ^ 2 - a ^ 2) :
    (b2 / b * t) ^ 2 = t ^ 2 - (a * t) ^ 2 / b ^ 2 := by
  field_simp
  linear_combination (t ^ 2) * hsq

theorem rot_dd_offdiag2 (t a b b2 lkj wk : ℝ) (hb : b ≠ 0) (hb2 : b2 ≠ 0) :
    (b2 / b * t) * ((b ^ 2 * lkj - a * wk) / (b2 * b))
      = t * lkj - a * t * wk / b ^ 2 := by
  field_simp
  ring

theorem rot_dd_gen2 (a b b2 lij lkj wi wk : ℝ) (hb : b ≠ 0) (hb2 : b2 ≠ 0)
    (hsq : b2 ^ 2 = b ^ 2 - a ^ 2) :
    ((b ^ 2 * lij - a * wi) / (b2 * b)) * ((b ^ 2 * lkj - a * wk) / (b2 * b))
      - (wi - a * lij) * (wk - a * lkj) / b2 ^ 2
      = lij * lkj - wi * wk / b ^ 2 := by
  field_simp
  linear_combination (b2 ^ 2 * (b ^ 2 * wi * wk - b ^ 4 * lij * lkj)) * hsq

theorem downdateLoop_ok (N : ℕ) (L : Mat) (w : Vec) :
    ∀ f j, j + f = N →
      (∀ m, j ≤ m → m < N → ddOK1 (ddState N L w m) m) →
      downdateLoop N j (ddState N L w j) = some (ddState N L w N) := by
  intro f
  induction f with
  | zero =>
    intro j hj _
    rw [downdateLoop, dif_neg (by omega)]
    have hjN : j = N := by omega
    rw [hjN]
  | succ f ihf =>
    intro j hj hok
    rw [downdateLoop, dif_pos (by omega)]
    rw [if_neg (not_le.mpr (hok j le_rfl (by omega)))]
    rw [← ddState_succ]
    exact ihf (j + 1) (by omega) fun m hm hmN => hok m (by omega) hmN

theorem downdateLoop_reach (N : ℕ) (L : Mat) (w : Vec) :
    ∀ j, j ≤ N → (∀ m, m < j → ddOK1 (ddState N L w m) m) →
      downdateLoop N 0 (L, w, 1) = downdateLoop N j (ddState N L w j) := by
  intro j
  induction j with
  | zero => intro _ _; rfl
  | succ j ih =>
    intro hj hall
    rw [ih (by omega) fun m hm => hall m (by omega)]
    rw [downdateLoop, dif_pos (by omega),
      if_neg (not_le.mpr (hall j (by omega))), ← ddState_succ]

/-- A passing downdate returns exactly the run of the unchecked recurrence. -/
theorem cholDowndate_of_ok (N : ℕ) (L : Mat) (w : Vec) (h : downdateOK N L w) :
    cholDowndate N L w = some (downdateRun N L w) := by
  unfold cholDowndate downdateRun
  have h0 : (L, w, (1 : ℝ)) = ddState N L w 0 := rfl
  rw [h0, downdateLoop_ok N L w N 0 (by omega) fun m _ hm => h m hm]
  rfl

/-- The downdate raises exactly when some column violates its check, and the
raise happens at the first such column. -/
theorem cholDowndate_none_iff (N : ℕ) (L : Mat) (w : Vec) :
    cholDowndate N L w = none
      ↔ ∃ j, j < N ∧ (∀ m, m < j → ddOK1 (ddState N L w m) m)
          ∧ ¬ ddOK1 (ddState N L w j) j := by
  constructor
  · intro hnone
    by_cases hall : ∀ m, m < N → ddOK1 (ddState N L w m) m
    · rw [cholDowndate_of_ok N L w hall] at hnone
      exact absurd hnone (by simp)
    · push_neg at hall
      classical
      obtain ⟨m0, hm0N, hm0⟩ := hall
      have hex : ∃ m, m < N ∧ ¬ ddOK1 (ddState N L w m) m := ⟨m0, hm0N, hm0⟩
      have hfN : Nat.find hex < N := (Nat.find_spec hex).1
      refine ⟨Nat.find hex, hfN, ?_, (Nat.find_spec hex).2⟩
      intro m hm
      by_contra hc
      exact Nat.find_min hex hm ⟨by omega, hc⟩
  · rintro ⟨j, hjN, hfirst, hfail⟩
    unfold cholDowndate
    rw [downdateLoop_reach N L w j (by omega) hfirst,
      downdateLoop, dif_pos hjN, if_pos (not_lt.mp fun hlt => hfail hlt)]
    rfl

/-- With the direction sign instantiated to `+1`, one `chol_updown` step is
one `chol_update` step. -/
theorem updownStep_true (N : ℕ) (s : Mat × Vec × ℝ) (k : ℕ) :
    updownStep N true s k = updateStep N s k := by
  unfold updownStep updateStep upDelta upGamma upBeta2
  simp only [one_mul, if_true]

/-- With the direction sign instantiated to `-1`, one `chol_updown` step is
one (unchecked) `chol_downdate` step. -/
theorem updownStep_false (N : ℕ) (s : Mat × Vec × ℝ) (k : ℕ) :
    updownStep N false s k = downdateStep N s k := by
  unfold updownStep downdateStep ddDelta ddGamma ddBeta2
  simp only [Bool.false_eq_true, if_false, neg_one_mul, neg_div, neg_mul,
    ← sub_eq_add_neg, one_mul]

/-- Away from the special-cased dimension, the Update direction of
`chol_updown` is exactly `chol_update`. -/
theorem cholUpdown_true_eq (N : ℕ) (L : Mat) (w : Vec) (hN : N ≠ 1) :
    cholUpdown N L w true = cholUpdate N L w := by
  unfold cholUpdown
  rw [if_neg hN]
  have hstep : updownStep N true = updateStep N :=
    funext fun s => funext fun k => updownStep_true N s k
  rw [hstep]
  rfl

/-- Away from the special-cased dimension, the Downdate direction of
`chol_updown` is exactly the unchecked downdate recurrence. -/
theorem cholUpdown_false_eq (N : ℕ) (L : Mat) (w : Vec) (hN : N ≠ 1) :
    cholUpdown N L w false = downdateRun N L w := by
  unfold cholUpdown
  rw [if_neg hN]
  have hstep : updownStep N false = downdateStep N :=
    funext fun s => funext fun k => updownStep_false N s k
  rw [hstep]
  rfl

/-- In the `N == 1` special case `chol_updown` hands back `w` untouched. -/
theorem cholUpdown_one_w (L : Mat) (w : Vec) (upd : Bool) :
    (cholUpdown 1 L w upd).2 = w := by
  unfold cholUpdown
  rw [if_pos rfl]

theorem cholUpdate_one_w (L : Mat) (w : Vec) :
    (cholUpdate 1 L w).2 0 = w 0 / L 0 0 := by
  unfold cholUpdate upState
  rw [show List.range 1 = [0] from rfl]
  show (updateStep 1 (L, w, 1) 0).2.1 0 = _
  unfold updateStep upAlpha
  simp

theorem cholUpdate_one_diag (L : Mat) (w : Vec) (hL : 0 < L 0 0) :
    (cholUpdate 1 L w).1 0 0
      = Real.sqrt (L 0 0 * L 0 0 + 1 * (w 0 * w 0)) := by
  have ht : L 0 0 ≠ 0 := ne_of_gt hL
  have hb2pos : 0 < Real.sqrt ((1 : ℝ) ^ 2 + (w 0 / L 0 0) ^ 2) :=
    Real.sqrt_pos.mpr (by positivity)
  have hb2 : Real.sqrt ((1 : ℝ) ^ 2 + (w 0 / L 0 0) ^ 2) ≠ 0 := ne_of_gt hb2pos
  have hsq : (Real.sqrt ((1 : ℝ) ^ 2 + (w 0 / L 0 0) ^ 2)) ^ 2
      = (1 : ℝ) ^ 2 + (w 0 / L 0 0) ^ 2 := Real.sq_sqrt (by positivity)
  unfold cholUpdate upState
  rw [show List.range 1 = [0] from rfl]
  show (updateStep 1 (L, w, 1) 0).1 0 0 = _
  unfold updateStep upDelta upGamma upBeta2 upAlpha
  simp only [if_pos (⟨rfl, rfl⟩ : (0 : ℕ) = 0 ∧ (0 : ℕ) = 0)]
  have hw : w 0 = w 0 / L 0 0 * L 0 0 := by field_simp
  calc (1 : ℝ) / Real.sqrt ((1 : ℝ) ^ 2 + (w 0 / L 0 0) ^ 2) * L 0 0
        + w 0 / L 0 0 / (Real.sqrt ((1 : ℝ) ^ 2 + (w 0 / L 0 0) ^ 2) * 1) * w 0
      = ((1 : ℝ) ^ 2 * L 0 0 + w 0 / L 0 0 * (w 0 / L 0 0 * L 0 0))
          / (Real.sqrt ((1 : ℝ) ^ 2 + (w 0 / L 0 0) ^ 2) * 1) := by
        rw [← rot_comb_up 1 _ (w 0 / L 0 0) (L 0 0) (w 0 / L 0 0 * L 0 0)
          one_ne_zero hb2]
        rw [← hw]
    _ = L 0 0 * Real.sqrt ((1 : ℝ) ^ 2 + (w 0 / L 0 0) ^ 2) / 1 :=
        rot_up_diag_val (L 0 0) (w 0 / L 0 0) 1 _ one_ne_zero hb2 hsq
    _ = Real.sqrt (L 0 0 * L 0 0 + 1 * (w 0 * w 0)) := by
        rw [div_one]
        have h1 : L 0 0 * L 0 0 + 1 * (w 0 * w 0)
            = (L 0 0 * Real.sqrt ((1 : ℝ) ^ 2 + (w 0 / L 0 0) ^ 2)) ^ 2 := by
          rw [mul_pow, hsq]
          field_simp
          ring
        rw [h1, Real.sqrt_sq (by positivity)]

/-- In the `N == 1` special case the Update factor of `chol_updown` agrees
with `chol_update` whenever the diagonal is positive. -/
theorem cholUpdown_one_update (L : Mat) (w : Vec) (hL : 0 < L 0 0) :
    (cholUpdown 1 L w true).1 0 0 = (cholUpdate 1 L w).1 0 0 := by
  rw [cholUpdate_one_diag L w hL]
  unfold cholUpdown
  rw [if_pos rfl]
  simp only [if_pos (⟨rfl, rfl⟩ : (0 : ℕ) = 0 ∧ (0 : ℕ) = 0)]
  norm_num

theorem downdateRun_one_diag (L : Mat) (w : Vec) :
    (downdateRun 1 L w).1 0 0
      = Real.sqrt ((1 : ℝ) ^ 2 - (w 0 / L 0 0) ^ 2) / 1 * L 0 0 := by
  unfold downdateRun ddState
  rw [show List.range 1 = [0] from rfl]
  show (downdateStep 1 (L, w, 1) 0).1 0 0 = _
  unfold downdateStep ddDelta ddBeta2 upAlpha
  norm_num

/-- In the `N == 1` special case the Downdate factor of `chol_updown` agrees
with the downdate recurrence whenever the check would pass. -/
theorem cholUpdown_one_downdate (L : Mat) (w : Vec) (hL : 0 < L 0 0)
    (hok : (w 0) ^ 2 < (L 0 0) ^ 2) :
    (cholUpdown 1 L w false).1 0 0 = (downdateRun 1 L w).1 0 0 := by
  have ht : L 0 0 ≠ 0 := ne_of_gt hL
  have hnn : (0 : ℝ) ≤ (1 : ℝ) ^ 2 - (w 0 / L 0 0) ^ 2 := by
    have h2 : (w 0 / L 0 0) ^ 2 < 1 := by
      rw [div_pow, div_lt_one (by positivity)]
      exact hok
    nlinarith
  have h1 : L 0 0 * L 0 0 + (-1 : ℝ) * (w 0 * w 0)
      = (Real.sqrt ((1 : ℝ) ^ 2 - (w 0 / L 0 0) ^ 2) * L 0 0) ^ 2 := by
    rw [mul_pow, Real.sq_sqrt hnn]
    field_simp
    ring
  rw [downdateRun_one_diag L w]
  unfold cholUpdown
  rw [if_pos rfl]
  show (if (0 : ℕ) = 0 ∧ (0 : ℕ) = 0 then
      Real.sqrt (L 0 0 * L 0 0 + (if false = true then (1 : ℝ) else -1) * (w 0 * w 0))
    else L 0 0) = _
  rw [if_pos ⟨rfl, rfl⟩,
    show (if false = true then (1 : ℝ) else -1) = -1 from by norm_num,
    h1, Real.sqrt_sq (by positivity), div_one]

theorem rot_up_case_ee (a b b2 t : ℝ) (hb : b ≠ 0) (hb2 : b2 ≠ 0)
    (hsq : b2 ^ 2 = b ^ 2 + a ^ 2) :
    (b / b2 * t + a / (b2 * b) * (a * t)) * (b / b2 * t + a / (b2 * b) * (a * t))
      - t * t = a * t * (a * t) / b ^ 2 := by
  rw [rot_comb_up b b2 a t (a * t) hb hb2]
  linear_combination rot_up_diag2 t a b b2 hb hb2 hsq

theorem rot_up_case_eg (a b b2 t ok wk : ℝ) (hb : b ≠ 0) (hb2 : b2 ≠ 0)
    (hsq : b2 ^ 2 = b ^ 2 + a ^ 2) :
    (b / b2 * t + a / (b2 * b) * (a * t)) * (b / b2 * ok + a / (b2 * b) * wk)
      - t * ok = a * t * wk / b ^ 2 := by
  rw [rot_comb_up b b2 a t (a * t) hb hb2, rot_comb_up b b2 a ok wk hb hb2]
  linear_combination rot_up_offdiag2 t a b b2 ok wk hb hb2 hsq

theorem rot_up_case_gg (a b b2 oi ok wi wk : ℝ) (hb : b ≠ 0) (hb2 : b2 ≠ 0)
    (hsq : b2 ^ 2 = b ^ 2 + a ^ 2) :
    (b / b2 * oi + a / (b2 * b) * wi) * (b / b2 * ok + a / (b2 * b) * wk)
      - oi * ok + (wi - a * oi) * (wk - a * ok) / b2 ^ 2
      = wi * wk / b ^ 2 := by
  rw [rot_comb_up b b2 a oi wi hb hb2, rot_comb_up b b2 a ok wk hb hb2]
  linear_combination rot_up_gen2 a b b2 oi ok wi wk hb hb2 hsq

theorem rot_dd_case_ee (a b b2 t : ℝ) (hb : b ≠ 0)
    (hsq : b2 ^ 2 = b ^ 2 - a ^ 2) :
    (b2 / b * t) * (b2 / b * t) - t * t + a * t * (a * t) / b ^ 2 = 0 := by
  linear_combination rot_dd_diag t a b b2 hb hsq

theorem rot_dd_case_eg (a b b2 t ok wk : ℝ) (hb : b ≠ 0) (hb2 : b2 ≠ 0)
    (hsq : b2 ^ 2 = b ^ 2 - a ^ 2) :
    (b2 / b * t) * (b2 / b * ok - a / (b2 * b) * (wk - a * ok))
      - t * ok + a * t * wk / b ^ 2 = 0 := by
  rw [rot_comb_dd b b2 a ok wk hb hb2 hsq]
  linear_combination rot_dd_offdiag2 t a b b2 ok wk hb hb2

theorem rot_dd_case_gg (a b b2 oi ok wi wk : ℝ) (hb : b ≠ 0) (hb2 : b2 ≠ 0)
    (hsq : b2 ^ 2 = b ^ 2 - a ^ 2) :
    (b2 / b * oi - a / (b2 * b) * (wi - a * oi))
        * (b2 / b * ok - a / (b2 * b) * (wk - a * ok))
      - oi * ok - (wi - a * oi) * (wk - a * ok) / b2 ^ 2
      + wi * wk / b ^ 2 = 0 := by
  rw [rot_comb_dd b b2 a oi wi hb hb2 hsq, rot_comb_dd b b2 a ok wk hb hb2 hsq]
  linear_combination rot_dd_gen2 a b b2 oi ok wi wk hb hb2 hsq

/-- Changing a matrix in one column changes each entry of its `M @ M.T` by
the contribution of that column alone. -/
theorem matMulT_col_update (M M' : Mat) (N j : ℕ) (hjN : j < N)
    (hcol : ∀ i m, m ≠ j → M' i m = M i m) (i k : ℕ) :
    matMulT M' N i k
      = matMulT M N i k + (M' i j * M' k j - M i j * M k j) := by
  unfold matMulT
  rw [← Finset.sum_erase_add (Finset.range N) _ (Finset.mem_range.mpr hjN),
    ← Finset.sum_erase_add (Finset.range N)
      (fun m => M i m * M k m) (Finset.mem_range.mpr hjN)]
  have hco : ∀ m ∈ (Finset.range N).erase j,
      M' i m * M' k m = M i m * M k m := by
    intro m hm
    have hmj : m ≠ j := Finset.ne_of_mem_erase hm
    rw [hcol i m hmj, hcol k m hmj]
  rw [Finset.sum_congr rfl hco]
  ring

theorem updateStep_mat (N : ℕ) (s : Mat × Vec × ℝ) (j i m : ℕ) :
    (updateStep N s j).1 i m
      = if m = j ∧ i = j then upDelta s j * s.1 j j + upGamma s j * s.2.1 j
        else if m = j ∧ j < i ∧ i < N then
          upDelta s j * s.1 i j + upGamma s j * s.2.1 i
        else s.1 i m := rfl

theorem updateStep_w (N : ℕ) (s : Mat × Vec × ℝ) (j i : ℕ) :
    (updateStep N s j).2.1 i
      = if i = j then upAlpha s j
        else if j < i ∧ i < N then s.2.1 i - upAlpha s j * s.1 i j
        else s.2.1 i := rfl

theorem updateStep_beta (N : ℕ) (s : Mat × Vec × ℝ) (j : ℕ) :
    (updateStep N s j).2.2 = upBeta2 s j := rfl

/-- The loop invariant of `chol_update` after `j` columns: the scale stays
positive, the factor stays lower triangular with its untouched columns equal
to the input, finished diagonal entries are positive, the prefix of `w`
already holds the forward-substitution solution while its suffix holds the
partially reduced right-hand side, and the rotation identity ties the current
`L @ L.T` and the active part of `w` back to the initial data. -/
def UpInv (N : ℕ) (L0 : Mat) (w0 : Vec) (j : ℕ) (s : Mat × Vec × ℝ) : Prop :=
  0 < s.2.2
  ∧ (∀ i m, i < m → m < N → s.1 i m = 0)
  ∧ (∀ i m, j ≤ m → s.1 i m = L0 i m)
  ∧ (∀ m, m < j → 0 < s.1 m m)
  ∧ (∀ i, i < N → s.2.1 i
      = if i < j then forwardSub L0 w0 i
        else w0 i - ∑ m in Finset.range j, forwardSub L0 w0 m * L0 i m)
  ∧ (∀ i k, i < N → k < N →
      matMulT s.1 N i k
        + (if i < j then 0 else s.2.1 i) * (if k < j then 0 else s.2.1 k)
            / s.2.2 ^ 2
        = matMulT L0 N i k + w0 i * w0 k)

theorem upInv_hold (N : ℕ) (L0 : Mat) (w0 : Vec) (hL0 : IsLowerTri L0 N)
    (hd0 : ∀ m, m < N → 0 < L0 m m) :
    ∀ j, j ≤ N → UpInv N L0 w0 j (upState N L0 w0 j) := by
  intro j
  induction j with
  | zero =>
    intro _
    refine ⟨one_pos, hL0, fun i m _ => rfl, fun m hm => absurd hm (by omega),
      ?_, ?_⟩
    · intro i _
      rw [if_neg (by omega)]
      simp only [Finset.range_zero, Finset.sum_empty, sub_zero]
      rfl
    · intro i k _ _
      rw [if_neg (by omega), if_neg (by omega)]
      show matMulT L0 N i k + w0 i * w0 k / (1 : ℝ) ^ 2 = _
      norm_num
  | succ j ih =>
    intro hj
    have hjN : j < N := by omega
    obtain ⟨hb, hupper, huntouched, hdiag, hw, hphi⟩ := ih (by omega)
    set s := upState N L0 w0 j with hs
    have ht0 : s.1 j j = L0 j j := huntouched j j le_rfl
    have htpos : 0 < s.1 j j := by rw [ht0]; exact hd0 j hjN
    have ht : s.1 j j ≠ 0 := ne_of_gt htpos
    have hbne : s.2.2 ≠ 0 := ne_of_gt hb
    have hbsq : 0 < s.2.2 ^ 2 + upAlpha s j ^ 2 := by
      have h1 := pow_pos hb 2
      nlinarith [sq_nonneg (upAlpha s j)]
    have hb2pos : 0 < upBeta2 s j := Real.sqrt_pos.mpr hbsq
    have hb2ne : upBeta2 s j ≠ 0 := ne_of_gt hb2pos
    have hsq : upBeta2 s j ^ 2 = s.2.2 ^ 2 + upAlpha s j ^ 2 :=
      Real.sq_sqrt (le_of_lt hbsq)
    have hwj : s.2.1 j = upAlpha s j * s.1 j j := by
      unfold upAlpha
      field_simp
    have hxj : upAlpha s j = forwardSub L0 w0 j := by
      unfold upAlpha
      rw [hw j hjN, if_neg (by omega), ht0, forwardSub_eq,
        Finset.sum_congr rfl
          (fun m _ => mul_comm (forwardSub L0 w0 m) (L0 j m))]
    rw [upState_succ, ← hs]
    refine ⟨hb2pos, ?_, ?_, ?_, ?_, ?_⟩
    · intro i m him hmN
      rw [updateStep_mat, if_neg (by rintro ⟨h1, h2⟩; omega),
        if_neg (by rintro ⟨h1, h2, h3⟩; omega)]
      exact hupper i m him hmN
    · intro i m hm
      rw [updateStep_mat, if_neg (by rintro ⟨h1, h2⟩; omega),
        if_neg (by rintro ⟨h1, h2, h3⟩; omega)]
      exact huntouched i m (by omega)
    · intro m hm
      rw [updateStep_mat]
      by_cases hmj : m = j
      · rw [if_pos ⟨hmj, hmj⟩, hwj]
        unfold upDelta upGamma
        rw [rot_comb_up _ _ _ _ _ hbne hb2ne,
          rot_up_diag_val (s.1 j j) (upAlpha s j) s.2.2 (upBeta2 s j)
            hbne hb2ne hsq]
        exact div_pos (mul_pos htpos hb2pos) hb
      · rw [if_neg (by rintro ⟨h1, h2⟩; exact hmj h1),
          if_neg (by rintro ⟨h1, h2, h3⟩; exact hmj h1)]
        exact hdiag m (by omega)
    · intro i hiN
      rw [updateStep_w]
      by_cases hij : i = j
      · rw [if_pos hij, if_pos (by omega), hij, hxj]
      · rw [if_neg hij]
        by_cases hji : j < i ∧ i < N
        · rw [if_pos hji, if_neg (by omega), hw i hiN, if_neg (by omega),
            huntouched i j le_rfl, hxj, Finset.sum_range_succ]
          ring
        · have hij2 : i < j := by omega
          rw [if_neg hji, if_pos (by omega), hw i hiN, if_pos hij2]
    · intro i k hiN hkN
      have hcol : ∀ i' m, m ≠ j → (updateStep N s j).1 i' m = s.1 i' m := by
        intro i' m hmj
        rw [updateStep_mat, if_neg (by rintro ⟨h1, h2⟩; exact hmj h1),
          if_neg (by rintro ⟨h1, h2, h3⟩; exact hmj h1)]
      have hph := hphi i k hiN hkN
      rw [matMulT_col_update s.1 (updateStep N s j).1 N j hjN hcol i k,
        updateStep_beta]
      have hAeq : (updateStep N s j).1 j j
          = upDelta s j * s.1 j j + upGamma s j * s.2.1 j := by
        rw [updateStep_mat, if_pos ⟨rfl, rfl⟩]
      have hAgt : ∀ i', j < i' → i' < N → (updateStep N s j).1 i' j
          = upDelta s j * s.1 i' j + upGamma s j * s.2.1 i' := by
        intro i' h1 h2
        rw [updateStep_mat, if_neg (by rintro ⟨h3, h4⟩; omega),
          if_pos ⟨rfl, h1, h2⟩]
      have hAlt : ∀ i', i' < j → (updateStep N s j).1 i' j = 0 := by
        intro i' hi'
        rw [updateStep_mat, if_neg (by rintro ⟨h1, h2⟩; omega),
          if_neg (by rintro ⟨h1, h2, h3⟩; omega)]
        exact hupper i' j hi' hjN
      have hWgt : ∀ i', j < i' → i' < N → (updateStep N s j).2.1 i'
          = s.2.1 i' - upAlpha s j * s.1 i' j := by
        intro i' h1 h2
        rw [updateStep_w, if_neg (by omega), if_pos ⟨h1, h2⟩]
      rcases lt_trichotomy i j with hi | hi | hi
      · rw [hAlt i hi, hupper i j hi hjN, if_pos (by omega : i < j + 1)]
        rw [if_pos hi] at hph
        linear_combination hph
      · rcases lt_trichotomy k j with hk | hk | hk
        · rw [hAlt k hk, hupper k j hk hjN, if_pos (by omega : k < j + 1)]
          rw [if_pos hk] at hph
          linear_combination hph
        · subst i
          subst k
          rw [if_pos (show j < j + 1 by omega), hAeq, hwj]
          rw [if_neg (show ¬ j < j by omega), hwj] at hph
          unfold upDelta upGamma
          linear_combination hph + rot_up_case_ee (upAlpha s j) s.2.2
            (upBeta2 s j) (s.1 j j) hbne hb2ne hsq
        · subst i
          rw [if_pos (show j < j + 1 by omega),
            if_neg (show ¬ k < j + 1 by omega), hAeq, hAgt k hk hkN, hwj,
            hWgt k hk hkN]
          rw [if_neg (show ¬ j < j by omega),
            if_neg (show ¬ k < j by omega), hwj] at hph
          unfold upDelta upGamma
          linear_combination hph + rot_up_case_eg (upAlpha s j) s.2.2
            (upBeta2 s j) (s.1 j j) (s.1 k j) (s.2.1 k) hbne hb2ne hsq
      · rcases lt_trichotomy k j with hk | hk | hk
        · rw [hAlt k hk, hupper k j hk hjN, if_pos (by omega : k < j + 1)]
          rw [if_pos hk] at hph
          linear_combination hph
        · subst k
          rw [if_pos (show j < j + 1 by omega),
            if_neg (show ¬ i < j + 1 by omega), hAeq, hAgt i hi hiN, hwj,
            hWgt i hi hiN]
          rw [if_neg (show ¬ j < j by omega),
            if_neg (show ¬ i < j by omega), hwj] at hph
          unfold upDelta upGamma
          linear_combination hph + rot_up_case_eg (upAlpha s j) s.2.2
            (upBeta2 s j) (s.1 j j) (s.1 i j) (s.2.1 i) hbne hb2ne hsq
        · rw [hAgt i hi hiN, hAgt k hk hkN, hWgt i hi hiN, hWgt k hk hkN,
            if_neg (show ¬ i < j + 1 by omega),
            if_neg (show ¬ k < j + 1 by omega)]
          rw [if_neg (show ¬ i < j by omega),
            if_neg (show ¬ k < j by omega)] at hph
          unfold upDelta upGamma
          linear_combination hph + rot_up_case_gg (upAlpha s j) s.2.2
            (upBeta2 s j) (s.1 i j) (s.1 k j) (s.2.1 i) (s.2.1 k)
            hbne hb2ne hsq

theorem downdateStep_mat (N : ℕ) (s : Mat × Vec × ℝ) (j i m : ℕ) :
    (downdateStep N s j).1 i m
      = if m = j ∧ i = j then ddDelta s j * s.1 j j
        else if m = j ∧ j < i ∧ i < N then
          ddDelta s j * s.1 i j
            - ddGamma s j * (s.2.1 i - upAlpha s j * s.1 i j)
        else s.1 i m := rfl

theorem downdateStep_w (N : ℕ) (s : Mat × Vec × ℝ) (j i : ℕ) :
    (downdateStep N s j).2.1 i
      = if i = j then upAlpha s j
        else if j < i ∧ i < N then s.2.1 i - upAlpha s j * s.1 i j
        else s.2.1 i := rfl

theorem downdateStep_beta (N : ℕ) (s : Mat × Vec × ℝ) (j : ℕ) :
    (downdateStep N s j).2.2 = ddBeta2 s j := rfl

/-- The loop invariant of `chol_downdate` after `j` passing columns. -/
def DdInv (N : ℕ) (L0 : Mat) (w0 : Vec) (j : ℕ) (s : Mat × Vec × ℝ) : Prop :=
  0 < s.2.2
  ∧ (∀ i m, i < m → m < N → s.1 i m = 0)
  ∧ (∀ i m, j ≤ m → s.1 i m = L0 i m)
  ∧ (∀ m, m < j → 0 < s.1 m m)
  ∧ (∀ i k, i < N → k < N →
      matMulT s.1 N i k
        - (if i < j then 0 else s.2.1 i) * (if k < j then 0 else s.2.1 k)
            / s.2.2 ^ 2
        = matMulT L0 N i k - w0 i * w0 k)

theorem ddInv_hold (N : ℕ) (L0 : Mat) (w0 : Vec) (hL0 : IsLowerTri L0 N)
    (hd0 : ∀ m, m < N → 0 < L0 m m) (hok : downdateOK N L0 w0) :
    ∀ j, j ≤ N → DdInv N L0 w0 j (ddState N L0 w0 j) := by
  intro j
  induction j with
  | zero =>
    intro _
    refine ⟨one_pos, hL0, fun i m _ => rfl,
      fun m hm => absurd hm (by omega), ?_⟩
    intro i k _ _
    rw [if_neg (by omega), if_neg (by omega)]
    show matMulT L0 N i k - w0 i * w0 k / (1 : ℝ) ^ 2 = _
    norm_num
  | succ j ih =>
    intro hj
    have hjN : j < N := by omega
    obtain ⟨hb, hupper, huntouched, hdiag, hphi⟩ := ih (by omega)
    set s := ddState N L0 w0 j with hs
    have hokj : upAlpha s j ^ 2 < s.2.2 ^ 2 := hok j hjN
    have ht0 : s.1 j j = L0 j j := huntouched j j le_rfl
    have htpos : 0 < s.1 j j := by rw [ht0]; exact hd0 j hjN
    have ht : s.1 j j ≠ 0 := ne_of_gt htpos
    have hbne : s.2.2 ≠ 0 := ne_of_gt hb
    have hbsq : 0 < s.2.2 ^ 2 - upAlpha s j ^ 2 := by nlinarith [hokj]
    have hb2pos : 0 < ddBeta2 s j := Real.sqrt_pos.mpr hbsq
    have hb2ne : ddBeta2 s j ≠ 0 := ne_of_gt hb2pos
    have hsq : ddBeta2 s j ^ 2 = s.2.2 ^ 2 - upAlpha s j ^ 2 :=
      Real.sq_sqrt (le_of_lt hbsq)
    have hwj : s.2.1 j = upAlpha s j * s.1 j j := by
      unfold upAlpha
      field_simp
    rw [ddState_succ, ← hs]
    refine ⟨hb2pos, ?_, ?_, ?_, ?_⟩
    · intro i m him hmN
      rw [downdateStep_mat, if_neg (by rintro ⟨h1, h2⟩; omega),
        if_neg (by rintro ⟨h1, h2, h3⟩; omega)]
      exact hupper i m him hmN
    · intro i m hm
      rw [downdateStep_mat, if_neg (by rintro ⟨h1, h2⟩; omega),
        if_neg (by rintro ⟨h1, h2, h3⟩; omega)]
      exact huntouched i m (by omega)
    · intro m hm
      rw [downdateStep_mat]
      by_cases hmj : m = j
      · rw [if_pos ⟨hmj, hmj⟩]
        unfold ddDelta
        exact mul_pos (div_pos hb2pos hb) htpos
      · rw [if_neg (by rintro ⟨h1, h2⟩; exact hmj h1),
          if_neg (by rintro ⟨h1, h2, h3⟩; exact hmj h1)]
        exact hdiag m (by omega)
    · intro i k hiN hkN
      have hcol : ∀ i' m, m ≠ j → (downdateStep N s j).1 i' m = s.1 i' m := by
        intro i' m hmj
        rw [downdateStep_mat, if_neg (by rintro ⟨h1, h2⟩; exact hmj h1),
          if_neg (by rintro ⟨h1, h2, h3⟩; exact hmj h1)]
      have hph := hphi i k hiN hkN
      rw [matMulT_col_update s.1 (downdateStep N s j).1 N j hjN hcol i k,
        downdateStep_beta]
      have hAeq : (downdateStep N s j).1 j j = ddDelta s j * s.1 j j := by
        rw [downdateStep_mat, if_pos ⟨rfl, rfl⟩]
      have hAgt : ∀ i', j < i' → i' < N → (downdateStep N s j).1 i' j
          = ddDelta s j * s.1 i' j
            - ddGamma s j * (s.2.1 i' - upAlpha s j * s.1 i' j) := by
        intro i' h1 h2
        rw [downdateStep_mat, if_neg (by rintro ⟨h3, h4⟩; omega),
          if_pos ⟨rfl, h1, h2⟩]
      have hAlt : ∀ i', i' < j → (downdateStep N s j).1 i' j = 0 := by
        intro i' hi'
        rw [downdateStep_mat, if_neg (by rintro ⟨h1, h2⟩; omega),
          if_neg (by rintro ⟨h1, h2, h3⟩; omega)]
        exact hupper i' j hi' hjN
      have hWgt : ∀ i', j < i' → i' < N → (downdateStep N s j).2.1 i'
          = s.2.1 i' - upAlpha s j * s.1 i' j := by
        intro i' h1 h2
        rw [downdateStep_w, if_neg (by omega), if_pos ⟨h1, h2⟩]
      rcases lt_trichotomy i j with hi | hi | hi
      · rw [hAlt i hi, hupper i j hi hjN, if_pos (by omega : i < j + 1)]
        rw [if_pos hi] at hph
        linear_combination hph
      · rcases lt_trichotomy k j with hk | hk | hk
        · rw [hAlt k hk, hupper k j hk hjN, if_pos (by omega : k < j + 1)]
          rw [if_pos hk] at hph
          linear_combination hph
        · subst i
          subst k
          rw [if_pos (show j < j + 1 by omega), hAeq]
          rw [if_neg (show ¬ j < j by omega), hwj] at hph
          unfold ddDelta
          linear_combination hph + rot_dd_case_ee (upAlpha s j) s.2.2
            (ddBeta2 s j) (s.1 j j) hbne hsq
        · subst i
          rw [if_pos (show j < j + 1 by omega),
            if_neg (show ¬ k < j + 1 by omega), hAeq, hAgt k hk hkN,
            hWgt k hk hkN]
          rw [if_neg (show ¬ j < j by omega),
            if_neg (show ¬ k < j by omega), hwj] at hph
          unfold ddDelta ddGamma
          linear_combination hph + rot_dd_case_eg (upAlpha s j) s.2.2
            (ddBeta2 s j) (s.1 j j) (s.1 k j) (s.2.1 k) hbne hb2ne hsq
      · rcases lt_trichotomy k j with hk | hk | hk
        · rw [hAlt k hk, hupper k j hk hjN, if_pos (by omega : k < j + 1)]
          rw [if_pos hk] at hph
          linear_combination hph
        · subst k
          rw [if_pos (show j < j + 1 by omega),
            if_neg (show ¬ i < j + 1 by omega), hAeq, hAgt i hi hiN,
            hWgt i hi hiN]
          rw [if_neg (show ¬ j < j by omega),
            if_neg (show ¬ i < j by omega), hwj] at hph
          unfold ddDelta ddGamma
          linear_combination hph + rot_dd_case_eg (upAlpha s j) s.2.2
            (ddBeta2 s j) (s.1 j j) (s.1 i j) (s.2.1 i) hbne hb2ne hsq
        · rw [hAgt i hi hiN, hAgt k hk hkN, hWgt i hi hiN, hWgt k hk hkN,
            if_neg (show ¬ i < j + 1 by omega),
            if_neg (show ¬ k < j + 1 by omega)]
          rw [if_neg (show ¬ i < j by omega),
            if_neg (show ¬ k < j by omega)] at hph
          unfold ddDelta ddGamma
          linear_combination hph + rot_dd_case_gg (upAlpha s j) s.2.2
            (ddBeta2 s j) (s.1 i j) (s.1 k j) (s.2.1 i) (s.2.1 k)
            hbne hb2ne hsq

/-- What the update loop guarantees at exit. -/
theorem cholUpdate_props (N : ℕ) (L : Mat) (w : Vec) (hL : IsLowerTri L N)
    (hd : ∀ m, m < N → 0 < L m m) :
    (∀ i k, i < N → k < N →
      matMulT (cholUpdate N L w).1 N i k = matMulT L N i k + w i * w k)
    ∧ (∀ m, m < N → 0 < (cholUpdate N L w).1 m m)
    ∧ IsLowerTri (cholUpdate N L w).1 N
    ∧ (∀ i, i < N → (cholUpdate N L w).2 i = forwardSub L w i) := by
  obtain ⟨hb, hupper, huntouched, hdiag, hw, hphi⟩ :=
    upInv_hold N L w hL hd N le_rfl
  refine ⟨?_, hdiag, hupper, ?_⟩
  · intro i k hiN hkN
    have h := hphi i k hiN hkN
    rw [if_pos hiN, if_pos hkN] at h
    have hC : (cholUpdate N L w).1 = (upState N L w N).1 := rfl
    rw [hC]
    linear_combination h
  · intro i hiN
    have h := hw i hiN
    rw [if_pos hiN] at h
    exact h

/-- What the downdate loop guarantees at exit when every check passes. -/
theorem downdateRun_props (N : ℕ) (L : Mat) (w : Vec) (hL : IsLowerTri L N)
    (hd : ∀ m, m < N → 0 < L m m) (hok : downdateOK N L w) :
    (∀ i k, i < N → k < N →
      matMulT (downdateRun N L w).1 N i k = matMulT L N i k - w i * w k)
    ∧ (∀ m, m < N → 0 < (downdateRun N L w).1 m m)
    ∧ IsLowerTri (downdateRun N L w).1 N := by
  obtain ⟨hb, hupper, huntouched, hdiag, hphi⟩ :=
    ddInv_hold N L w hL hd hok N le_rfl
  refine ⟨?_, hdiag, hupper⟩
  intro i k hiN hkN
  have h := hphi i k hiN hkN
  rw [if_pos hiN, if_pos hkN] at h
  have hC : (downdateRun N L w).1 = (ddState N L w N).1 := rfl
  rw [hC]
  linear_combination h

theorem cholUpPartial_stable (A : Mat) :
    ∀ n n' i m, i < n → n ≤ n' →
      ((List.range n').foldl (cholUpStep A) (fun _ _ => 0)) i m
        = ((List.range n).foldl (cholUpStep A) (fun _ _ => 0)) i m := by
  intro n n'
  induction n' with
  | zero => intro i m h1 h2; omega
  | succ c ih =>
    intro i m hin hnc
    rcases Nat.eq_or_lt_of_le hnc with he | hlt
    · rw [he]
    · have hnc' : n ≤ c := by omega
      rw [List.range_succ, List.foldl_append]
      show cholUpStep A ((List.range c).foldl (cholUpStep A) (fun _ _ => 0))
        c i m = _
      unfold cholUpStep
      rw [if_neg (by rintro ⟨h1, h2⟩; omega),
        if_neg (by rintro ⟨h1, h2⟩; omega)]
      exact ih i m hin hnc'

/-- The diagonal recurrence that `chol_up` computes, with no hypothesis on
the input at all: there is no error branch, so a negative radicand simply
flows into `np.sqrt`. -/
theorem cholUp_diag_rec (A : Mat) (N : ℕ) {k : ℕ} (hk : k < N) :
    cholUp A N k k
      = Real.sqrt (A k k - ∑ j in Finset.range k, cholUp A N k j ^ 2) := by
  have hrow : ∀ m, cholUp A N k m
      = cholUpStep A ((List.range k).foldl (cholUpStep A) (fun _ _ => 0))
          k k m := by
    intro m
    show ((List.range N).foldl (cholUpStep A) (fun _ _ => 0)) k m = _
    rw [cholUpPartial_stable A (k + 1) N k m (by omega) (by omega),
      List.range_succ, List.foldl_append]
    rfl
  rw [hrow k]
  show (if k = k ∧ k < k then _
    else if k = k ∧ k = k then
      Real.sqrt (A k k - ∑ j in Finset.range k,
        forwardSub ((List.range k).foldl (cholUpStep A) (fun _ _ => 0))
          (fun j => A j k) j ^ 2)
    else _) = _
  rw [if_neg (by rintro ⟨h1, h2⟩; omega), if_pos ⟨rfl, rfl⟩]
  congr 2
  apply Finset.sum_congr rfl
  intro j hj
  have hjk : j < k := Finset.mem_range.mp hj
  rw [hrow j]
  show _ = (if k = k ∧ j < k then
      forwardSub ((List.range k).foldl (cholUpStep A) (fun _ _ => 0))
        (fun j => A j k) j
    else _) ^ 2
  rw [if_pos ⟨rfl, hjk⟩]

/-- Diagonal matrices with positive diagonal are symmetric positive
definite. -/
theorem isSPD_diag (d : Vec) (N : ℕ) (hd : ∀ i, i < N → 0 < d i) :
    IsSPD (fun i k => if i = k then d i else 0) N := by
  constructor
  · intro i k _ _
    by_cases h : i = k
    · rw [h]
    · show (if i = k then d i else 0) = (if k = i then d k else 0)
      rw [if_neg h, if_neg fun hh => h hh.symm]
  · rintro x ⟨i0, hi0, hx0⟩
    unfold quadForm
    have hterm : ∀ i ∈ Finset.range N,
        (∑ k in Finset.range N, x i * (if i = k then d i else 0) * x k)
          = d i * x i ^ 2 := by
      intro i hi
      have hz : ∀ k ∈ Finset.range N, k ≠ i →
          x i * (if i = k then d i else 0) * x k = 0 := by
        intro k _ hki
        rw [if_neg fun h => hki h.symm, mul_zero, zero_mul]
      rw [Finset.sum_eq_single_of_mem i hi hz, if_pos rfl]
      ring
    rw [Finset.sum_congr rfl hterm]
    apply Finset.sum_pos'
    · intro i hi
      exact mul_nonneg (le_of_lt (hd i (Finset.mem_range.mp hi))) (sq_nonneg _)
    · refine ⟨i0, Finset.mem_range.mpr hi0, ?_⟩
      have hx2 : 0 < x i0 ^ 2 :=
        lt_of_le_of_ne (sq_nonneg _) (Ne.symm (pow_ne_zero 2 hx0))
      exact mul_pos (hd i0 hi0) hx2

/-- A concrete 4 by 4 SPD matrix with rows `(1,0,1,0)`, `(0,1,1,0)`,
`(1,1,4,0)`, `(0,0,0,1)`, used to exercise `chol_super` on the partition
`(2, 2)`. -/
noncomputable def exA : Mat := fun i k =>
  if i = 0 ∧ k = 0 then 1
  else if i = 0 ∧ k = 2 then 1
  else if i = 1 ∧ k = 1 then 1
  else if i = 1 ∧ k = 2 then 1
  else if i = 2 ∧ k = 0 then 1
  else if i = 2 ∧ k = 1 then 1
  else if i = 2 ∧ k = 2 then 4
  else if i = 3 ∧ k = 3 then 1
  else 0

theorem exA_spd : IsSPD exA 4 := by
  constructor
  · intro i k hi hk
    interval_cases i <;> interval_cases k <;> norm_num [exA]
  · rintro x ⟨i0, hi0, hx0⟩
    have hq : quadForm exA 4 x
        = (x 0 + x 2) ^ 2 + (x 1 + x 2) ^ 2 + 2 * x 2 ^ 2 + x 3 ^ 2 := by
      unfold quadForm
      simp only [Finset.sum_range_succ, Finset.range_zero, Finset.sum_empty,
        zero_add]
      norm_num [exA]
      ring
    rw [hq]
    interval_cases i0
    · have h0 : 0 < x 0 ^ 2 :=
        lt_of_le_of_ne (sq_nonneg _) (Ne.symm (pow_ne_zero 2 hx0))
      nlinarith [sq_nonneg (x 0 + 2 * x 2), sq_nonneg (x 1 + x 2),
        sq_nonneg (x 3), sq_nonneg (x 2), h0]
    · have h0 : 0 < x 1 ^ 2 :=
        lt_of_le_of_ne (sq_nonneg _) (Ne.symm (pow_ne_zero 2 hx0))
      nlinarith [sq_nonneg (x 1 + 2 * x 2), sq_nonneg (x 0 + x 2),
        sq_nonneg (x 3), sq_nonneg (x 2), h0]
    · have h0 : 0 < x 2 ^ 2 :=
        lt_of_le_of_ne (sq_nonneg _) (Ne.symm (pow_ne_zero 2 hx0))
      nlinarith [sq_nonneg (x 0 + x 2), sq_nonneg (x 1 + x 2),
        sq_nonneg (x 3), h0]
    · have h0 : 0 < x 3 ^ 2 :=
        lt_of_le_of_ne (sq_nonneg _) (Ne.symm (pow_ne_zero 2 hx0))
      nlinarith [sq_nonneg (x 0 + x 2), sq_nonneg (x 1 + x 2),
        sq_nonneg (x 2), h0]

theorem exA_super_entries :
    cholSuperRun exA 4 [2, 2] 0 (fun _ _ => 0) 1 0 = 0
    ∧ cholSuperRun exA 4 [2, 2] 0 (fun _ _ => 0) 1 2 = 0
    ∧ cholSuperRun exA 4 [2, 2] 0 (fun _ _ => 0) 1 3 = 0
    ∧ cholSuperRun exA 4 [2, 2] 0 (fun _ _ => 0) 2 1 = 0 := by
  have hrun : cholSuperRun exA 4 [2, 2] 0 (fun _ _ => 0)
      = cholSuperBlock exA 4
          (cholSuperBlock exA 4 (fun _ _ => 0) 0 2) 2 2 := rfl
  refine ⟨?_, ?_, ?_, ?_⟩
  · rw [hrun]
    unfold cholSuperBlock
    norm_num
    rw [cholLeft_col0 _ 2 (by omega) (by omega)]
    norm_num [exA]
  · rw [hrun]
    unfold cholSuperBlock
    norm_num
  · rw [hrun]
    unfold cholSuperBlock
    norm_num
  · rw [hrun]
    unfold cholSuperBlock
    norm_num
    right
    rw [cholLeft_col0 _ 2 (by omega) (by omega)]
    norm_num [exA]

/-- C1 counterexample: the SPD matrix `exA` with the valid partition
`(2, 2)` makes `chol_super` return a factor with `L @ L.T` wrong at entry
`(2, 1)`: the source divides the rows below a block ELEMENTWISE by the
transposed block factor (numpy `/`), not by a triangular solve, so the entry
is divided by the zero below the diagonal of `L[k,k].T` (inf/NaN in numpy,
the junk value `0` here) and the product misses `A[2,1] = 1`. -/
theorem chol_super_partition_counterexample :
    IsSPD exA 4
    ∧ ([2, 2] : List ℤ).sum = ((4 : ℕ) : ℤ)
    ∧ (∀ x ∈ ([2, 2] : List ℤ), 0 < x)
    ∧ cholSuper exA 4 [2, 2]
        = some (cholSuperRun exA 4 [2, 2] 0 (fun _ _ => 0))
    ∧ matMulT (cholSuperRun exA 4 [2, 2] 0 (fun _ _ => 0)) 4 2 1 = 0
    ∧ exA 2 1 = 1 := by
  obtain ⟨h10, h12, h13, h21⟩ := exA_super_entries
  have hvalid : ([2, 2] : List ℤ).sum = ((4 : ℕ) : ℤ)
      ∧ ∀ x ∈ ([2, 2] : List ℤ), 0 < x := by
    constructor
    · decide
    · intro x hx
      simp only [List.mem_cons, List.not_mem_nil, or_false] at hx
      rcases hx with rfl | rfl <;> norm_num
  refine ⟨exA_spd, hvalid.1, hvalid.2, ?_, ?_, by norm_num [exA]⟩
  · unfold cholSuper
    rw [if_pos hvalid]
    rfl
  · unfold matMulT
    rw [Finset.sum_range_succ, Finset.sum_range_succ, Finset.sum_range_succ,
      Finset.sum_range_succ, Finset.range_zero, Finset.sum_empty,
      h10, h12, h13, h21]
    ring

/-- C1 (amended to the all-ones supernodal partition): for every SPD matrix
`A`, the left-looking factor is lower triangular with nonnegative diagonal
and satisfies `L @ L.T = A` on the block, and the up-looking, the
sparsity-restricted, the right-looking and the all-ones supernodal variants
(all with `lower=True`) return exactly the same factor. -/
theorem chol_variants_spd_correct (A : Mat) (N : ℕ) (hA : IsSPD A N) :
    IsLowerTri (cholLeft A N) N
    ∧ (∀ k, k < N → 0 ≤ cholLeft A N k k)
    ∧ (∀ i k, i < N → k < N → matMulT (cholLeft A N) N i k = A i k)
    ∧ (∀ i k, i < N → k < N → cholUp A N i k = cholLeft A N i k)
    ∧ (∀ i k, i < N → k < N → cholLeftAmp A N i k = cholLeft A N i k)
    ∧ (∀ i k, i < N → k < N → cholRight A N i k = cholLeft A N i k)
    ∧ cholSuper A N (List.replicate N 1)
        = some (cholSuperRun A N (List.replicate N 1) 0 (fun _ _ => 0))
    ∧ (∀ i k, i < N → k < N →
        cholSuperRun A N (List.replicate N 1) 0 (fun _ _ => 0) i k
          = cholLeft A N i k) := by
  refine ⟨cholLeft_lowerTri A N,
    fun k hk => le_of_lt (spd_diag_pos A N hA hk),
    spd_factorizes A N hA,
    cholUp_eq_cholLeft A N hA.1,
    fun i k _ _ => by rw [cholLeftAmp_eq_cholLeft],
    fun i k _ hk => cholRight_eq_cholLeft A N i k hk,
    (cholSuper_ones A N).1,
    fun i k _ _ => by rw [(cholSuper_ones A N).2]⟩

/-- The diagonal test matrix of the C1 witness. -/
noncomputable def exD : Mat := fun i k => if i = k then (i + 1 : ℝ) else 0

theorem chol_variants_spd_correct_witness :
    IsSPD exD 3
    ∧ (IsLowerTri (cholLeft exD 3) 3
      ∧ (∀ k, k < 3 → 0 ≤ cholLeft exD 3 k k)
      ∧ (∀ i k, i < 3 → k < 3 → matMulT (cholLeft exD 3) 3 i k = exD i k)
      ∧ (∀ i k, i < 3 → k < 3 → cholUp exD 3 i k = cholLeft exD 3 i k)
      ∧ (∀ i k, i < 3 → k < 3 → cholLeftAmp exD 3 i k = cholLeft exD 3 i k)
      ∧ (∀ i k, i < 3 → k < 3 → cholRight exD 3 i k = cholLeft exD 3 i k)
      ∧ cholSuper exD 3 (List.replicate 3 1)
          = some (cholSuperRun exD 3 (List.replicate 3 1) 0 (fun _ _ => 0))
      ∧ (∀ i k, i < 3 → k < 3 →
          cholSuperRun exD 3 (List.replicate 3 1) 0 (fun _ _ => 0) i k
            = cholLeft exD 3 i k)) := by
  have h : IsSPD exD 3 :=
    isSPD_diag (fun i => (i + 1 : ℝ)) 3 (fun i _ => by positivity)
  exact ⟨h, chol_variants_spd_correct exD 3 h⟩

/-- C7: with the all-ones partition, the supernodal factorization passes its
partition checks and produces exactly the factor of `chol_left` (entrywise,
everywhere). -/
theorem chol_super_allones_eq_chol_left (A : Mat) (N : ℕ) (_hA : IsSPD A N) :
    cholSuper A N (List.replicate N 1)
      = some (cholSuperRun A N (List.replicate N 1) 0 (fun _ _ => 0))
    ∧ ∀ i k, cholSuperRun A N (List.replicate N 1) 0 (fun _ _ => 0) i k
        = cholLeft A N i k :=
  ⟨(cholSuper_ones A N).1, fun i k => by rw [(cholSuper_ones A N).2]⟩

/-- The diagonal test matrix of the C7 witness. -/
noncomputable def exD2 : Mat := fun i k => if i = k then (2 : ℝ) else 0

theorem chol_super_allones_eq_chol_left_witness :
    IsSPD exD2 2
    ∧ (cholSuper exD2 2 (List.replicate 2 1)
        = some (cholSuperRun exD2 2 (List.replicate 2 1) 0 (fun _ _ => 0))
      ∧ ∀ i k, cholSuperRun exD2 2 (List.replicate 2 1) 0 (fun _ _ => 0) i k
          = cholLeft exD2 2 i k) := by
  have h : IsSPD exD2 2 :=
    isSPD_diag (fun _ => (2 : ℝ)) 2 (fun i _ => by norm_num)
  exact ⟨h, chol_super_allones_eq_chol_left exD2 2 h⟩

/-- C8: every partition with a nonpositive entry or with the wrong sum is
rejected by the leading asserts of `chol_super` before any factor data is
produced (the InvalidPartition error of the specification). -/
theorem chol_super_invalid_partition (A : Mat) (N : ℕ) (s : List ℤ)
    (hbad : (∃ x ∈ s, x ≤ 0) ∨ s.sum ≠ (N : ℤ)) :
    cholSuper A N s = none := by
  unfold cholSuper
  rw [if_neg]
  rintro ⟨hsum, hpos⟩
  rcases hbad with ⟨x, hx, hx0⟩ | hne
  · exact absurd (hpos x hx) (by omega)
  · exact hne hsum

theorem chol_super_invalid_partition_witness :
    ((∃ x ∈ ([2, 1] : List ℤ), x ≤ 0)
        ∨ ([2, 1] : List ℤ).sum ≠ ((4 : ℕ) : ℤ))
    ∧ cholSuper (fun _ _ => 0) 4 [2, 1] = none := by
  have hbad : (∃ x ∈ ([2, 1] : List ℤ), x ≤ 0)
      ∨ ([2, 1] : List ℤ).sum ≠ ((4 : ℕ) : ℤ) := by
    right
    decide
  exact ⟨hbad, chol_super_invalid_partition (fun _ _ => 0) 4 [2, 1] hbad⟩

/-- C4 (amended): `chol_up` performs no positive-definiteness check at all —
for every input and every row, the diagonal entry returned is `np.sqrt` of
the radicand, also when the radicand is negative (`np.sqrt` then yields NaN
with a RuntimeWarning and the factor is returned anyway; the embedding
returns the junk value of `Real.sqrt`). -/
theorem chol_up_no_error (A : Mat) (N : ℕ) (k : ℕ) (hk : k < N) :
    cholUp A N k k
      = Real.sqrt (A k k - ∑ j in Finset.range k, cholUp A N k j ^ 2) :=
  cholUp_diag_rec A N hk

theorem chol_up_no_error_witness :
    (0 : ℕ) < 1
    ∧ cholUp (fun _ _ => (-1 : ℝ)) 1 0 0
        = Real.sqrt ((fun _ _ => (-1 : ℝ)) 0 0
            - ∑ j in Finset.range 0, cholUp (fun _ _ => (-1 : ℝ)) 1 0 j ^ 2) :=
  ⟨by norm_num, chol_up_no_error (fun _ _ => (-1 : ℝ)) 1 0 (by norm_num)⟩

/-- C4 counterexample: on the 1 by 1 input `[[-1]]` the radicand of row 0 is
negative, yet `chol_up` reports no error and returns a factor whose entry is
the junk value of the square root (NaN in numpy, `0` here). -/
theorem chol_up_negative_radicand_counterexample :
    ((fun _ _ => (-1 : ℝ)) 0 0
        - ∑ j in Finset.range 0, cholUp (fun _ _ => (-1 : ℝ)) 1 0 j ^ 2) < 0
    ∧ cholUp (fun _ _ => (-1 : ℝ)) 1 0 0 = 0 := by
  constructor
  · norm_num
  · rw [cholUp_diag_rec (fun _ _ => (-1 : ℝ)) 1 (by norm_num)]
    rw [Real.sqrt_eq_zero']
    norm_num

/-- C2: for every lower-triangular `L` with strictly positive diagonal and
every vector `w`, `chol_update` returns a factor `L1` with
`L1 @ L1.T = L @ L.T + w @ w.T` in exact arithmetic and nonnegative
diagonal, and whenever `chol_downdate` succeeds (all its per-column checks
pass), it returns a factor `L2` with `L2 @ L2.T = L @ L.T - w @ w.T` and
nonnegative diagonal. -/
theorem chol_update_downdate_correct (N : ℕ) (L : Mat) (w : Vec)
    (hL : IsLowerTri L N) (hd : ∀ m, m < N → 0 < L m m) :
    (∀ i k, i < N → k < N →
        matMulT (cholUpdate N L w).1 N i k = matMulT L N i k + w i * w k)
    ∧ (∀ m, m < N → 0 ≤ (cholUpdate N L w).1 m m)
    ∧ (downdateOK N L w →
        cholDowndate N L w = some (downdateRun N L w)
        ∧ (∀ i k, i < N → k < N →
            matMulT (downdateRun N L w).1 N i k
              = matMulT L N i k - w i * w k)
        ∧ (∀ m, m < N → 0 ≤ (downdateRun N L w).1 m m)) := by
  obtain ⟨hmm, hdg, -, -⟩ := cholUpdate_props N L w hL hd
  refine ⟨hmm, fun m hm => le_of_lt (hdg m hm), ?_⟩
  intro hok
  obtain ⟨hmm2, hdg2, -⟩ := downdateRun_props N L w hL hd hok
  exact ⟨cholDowndate_of_ok N L w hok, hmm2, fun m hm => le_of_lt (hdg2 m hm)⟩

theorem chol_update_downdate_correct_witness :
    IsLowerTri (fun _ _ => (2 : ℝ)) 1
    ∧ (∀ m, m < 1 → 0 < (fun _ _ => (2 : ℝ)) m m)
    ∧ ((∀ i k, i < 1 → k < 1 →
          matMulT (cholUpdate 1 (fun _ _ => (2 : ℝ)) (fun _ => 1)).1 1 i k
            = matMulT (fun _ _ => (2 : ℝ)) 1 i k + 1 * 1)
      ∧ (∀ m, m < 1 →
          0 ≤ (cholUpdate 1 (fun _ _ => (2 : ℝ)) (fun _ => 1)).1 m m)
      ∧ (downdateOK 1 (fun _ _ => (2 : ℝ)) (fun _ => 1) →
          cholDowndate 1 (fun _ _ => (2 : ℝ)) (fun _ => 1)
              = some (downdateRun 1 (fun _ _ => (2 : ℝ)) (fun _ => 1))
          ∧ (∀ i k, i < 1 → k < 1 →
              matMulT (downdateRun 1 (fun _ _ => (2 : ℝ)) (fun _ => 1)).1 1 i k
                = matMulT (fun _ _ => (2 : ℝ)) 1 i k - 1 * 1)
          ∧ (∀ m, m < 1 →
              0 ≤ (downdateRun 1 (fun _ _ => (2 : ℝ)) (fun _ => 1)).1 m m))) := by
  have hL : IsLowerTri (fun _ _ => (2 : ℝ)) 1 :=
    fun i m h1 h2 => absurd h1 (by omega)
  have hd : ∀ m, m < 1 → 0 < (fun _ _ => (2 : ℝ)) m m := fun m _ => by norm_num
  exact ⟨hL, hd,
    chol_update_downdate_correct 1 (fun _ _ => (2 : ℝ)) (fun _ => 1) hL hd⟩

/-- C3: `chol_downdate` raises NotPositiveDefinite (modelled by `none`: no
factor, partial or otherwise, escapes to the caller, whose own `L` the
source never mutates since it copies its arguments) exactly when some column
fails the `α**2 >= β**2` check, and then the failing column is the FIRST
such `j`: every earlier column passed its check. -/
theorem chol_downdate_first_failure (N : ℕ) (L : Mat) (w : Vec) :
    cholDowndate N L w = none
      ↔ ∃ j, j < N ∧ (∀ m, m < j → ddOK1 (ddState N L w m) m)
          ∧ ¬ ddOK1 (ddState N L w j) j :=
  cholDowndate_none_iff N L w

/-- C5 (amended): for `N ≠ 1`, `chol_updown` agrees exactly with
`chol_update` in the Update direction and with the successful run of
`chol_downdate` in the Downdate direction; but in the `N == 1` special case
it returns the input `w` untransformed in both directions (so it differs
from `chol_update`/`chol_downdate` there), its updated 1 by 1 factor agrees
with `chol_update` only in the matrix part, and in the Downdate direction it
performs no `α**2 >= β**2` check (under that check its matrix part agrees
with the downdate run). -/
theorem chol_updown_refines (N : ℕ) (L : Mat) (w : Vec) :
    (N ≠ 1 → cholUpdown N L w true = cholUpdate N L w)
    ∧ (N ≠ 1 → cholUpdown N L w false = downdateRun N L w)
    ∧ (downdateOK N L w → cholDowndate N L w = some (downdateRun N L w))
    ∧ (cholUpdown 1 L w true).2 = w
    ∧ (cholUpdown 1 L w false).2 = w
    ∧ (0 < L 0 0 →
        (cholUpdown 1 L w true).1 0 0 = (cholUpdate 1 L w).1 0 0)
    ∧ (0 < L 0 0 → w 0 ^ 2 < L 0 0 ^ 2 →
        (cholUpdown 1 L w false).1 0 0 = (downdateRun 1 L w).1 0 0) :=
  ⟨cholUpdown_true_eq N L w, cholUpdown_false_eq N L w,
    cholDowndate_of_ok N L w, cholUpdown_one_w L w true,
    cholUpdown_one_w L w false, cholUpdown_one_update L w,
    cholUpdown_one_downdate L w⟩

/-- C5 counterexample: at `N = 1` with `L = [[2]]` and `w = [4]`,
`chol_updown(..., update=True)` returns `4` in its second component (the
input `w` untouched, the source's `N == 1` early return), while
`chol_update` returns `w[0]/L[0,0] = 2`: the two functions do not agree at
every dimension. -/
theorem chol_updown_n1_counterexample :
    (cholUpdown 1 (fun _ _ => (2 : ℝ)) (fun _ => 4) true).2 0
      ≠ (cholUpdate 1 (fun _ _ => (2 : ℝ)) (fun _ => 4)).2 0 := by
  rw [cholUpdown_one_w, cholUpdate_one_w]
  norm_num

/-- C6 (amended): the second return value of `chol_update` is the
forward-substitution solution of `L @ x = w`, and so is the second return
value of `chol_updown` in the Update direction whenever `N ≠ 1`; in the
`N == 1` special case `chol_updown` instead returns the input `w` itself. -/
theorem chol_update_forward_sub (N : ℕ) (L : Mat) (w : Vec)
    (hL : IsLowerTri L N) (hd : ∀ m, m < N → 0 < L m m) :
    (∀ i, i < N → (cholUpdate N L w).2 i = forwardSub L w i)
    ∧ (N ≠ 1 → ∀ i, i < N →
        (cholUpdown N L w true).2 i = forwardSub L w i)
    ∧ (cholUpdown 1 L w true).2 = w := by
  refine ⟨(cholUpdate_props N L w hL hd).2.2.2, ?_, cholUpdown_one_w L w true⟩
  intro hN i hiN
  rw [cholUpdown_true_eq N L w hN]
  exact (cholUpdate_props N L w hL hd).2.2.2 i hiN

/-- The diagonal factor of the C6 witness. -/
noncomputable def exL2 : Mat := fun i k => if i = k then (2 : ℝ) else 0

theorem chol_update_forward_sub_witness :
    IsLowerTri exL2 2
    ∧ (∀ m, m < 2 → 0 < exL2 m m)
    ∧ ((∀ i, i < 2 →
          (cholUpdate 2 exL2 (fun _ => 6)).2 i = forwardSub exL2 (fun _ => 6) i)
      ∧ ((2 : ℕ) ≠ 1 → ∀ i, i < 2 →
          (cholUpdown 2 exL2 (fun _ => 6) true).2 i
            = forwardSub exL2 (fun _ => 6) i)
      ∧ (cholUpdown 1 exL2 (fun _ => 6) true).2 = fun _ => 6) := by
  have hL : IsLowerTri exL2 2 := by
    intro i m h1 h2
    simp only [exL2]
    rw [if_neg (by omega)]
  have hd : ∀ m, m < 2 → 0 < exL2 m m := by
    intro m _
    simp only [exL2]
    norm_num
  exact ⟨hL, hd, chol_update_forward_sub 2 exL2 (fun _ => 6) hL hd⟩

/-- C6 counterexample: at `N = 1` with `L = [[3]]` and `w = [6]`,
`chol_updown(..., update=True)` returns `6` as its second component — the
input `w` untransformed — not the forward-substitution solution
`6/3 = 2`. -/
theorem chol_updown_n1_solution_counterexample :
    IsLowerTri (fun _ _ => (3 : ℝ)) 1
    ∧ (∀ m, m < 1 → 0 < (fun _ _ => (3 : ℝ)) m m)
    ∧ (cholUpdown 1 (fun _ _ => (3 : ℝ)) (fun _ => 6) true).2 0
        ≠ forwardSub (fun _ _ => (3 : ℝ)) (fun _ => 6) 0 := by
  refine ⟨fun i m h1 h2 => absurd h1 (by omega), fun m _ => by norm_num, ?_⟩
  rw [cholUpdown_one_w, forwardSub_eq]
  norm_num [Finset.sum_range_zero]

/-- C9: round trip — updating with `w` and then downdating with the same
`w`, when every column check of the downdate passes, restores the original
factor exactly on the block (by uniqueness of the Cholesky factor with
positive diagonal). -/
theorem chol_update_downdate_roundtrip (N : ℕ) (L : Mat) (w : Vec)
    (hL : IsLowerTri L N) (hd : ∀ m, m < N → 0 < L m m)
    (hok : downdateOK N (cholUpdate N L w).1 w) :
    cholDowndate N (cholUpdate N L w).1 w
        = some (downdateRun N (cholUpdate N L w).1 w)
    ∧ ∀ i k, i < N → k < N →
        (downdateRun N (cholUpdate N L w).1 w).1 i k = L i k := by
  obtain ⟨hup_mm, hup_diag, hup_low, -⟩ := cholUpdate_props N L w hL hd
  obtain ⟨hdn_mm, hdn_diag, hdn_low⟩ :=
    downdateRun_props N (cholUpdate N L w).1 w hup_low hup_diag hok
  refine ⟨cholDowndate_of_ok N (cholUpdate N L w).1 w hok, ?_⟩
  intro i k hiN hkN
  have hDL : ∀ a b, a < N → b < N →
      matMulT (downdateRun N (cholUpdate N L w).1 w).1 N a b
        = matMulT L N a b := by
    intro a b h1 h2
    rw [hdn_mm a b h1 h2, hup_mm a b h1 h2]
    ring
  have h1 := cholLeft_matMulT N (downdateRun N (cholUpdate N L w).1 w).1
    hdn_low hdn_diag k hkN i hiN
  have h2 := cholLeft_matMulT N L hL hd k hkN i hiN
  have h3 : cholLeft (matMulT (downdateRun N (cholUpdate N L w).1 w).1 N) N
      = cholLeft (matMulT L N) N := cholLeft_congr N hDL
  rw [← h1, h3, h2]

theorem chol_update_downdate_roundtrip_witness :
    IsLowerTri (fun _ _ => (2 : ℝ)) 1
    ∧ (∀ m, m < 1 → 0 < (fun _ _ => (2 : ℝ)) m m)
    ∧ downdateOK 1 (cholUpdate 1 (fun _ _ => (2 : ℝ)) (fun _ => 1)).1
        (fun _ => 1)
    ∧ (cholDowndate 1 (cholUpdate 1 (fun _ _ => (2 : ℝ)) (fun _ => 1)).1
          (fun _ => 1)
          = some (downdateRun 1
              (cholUpdate 1 (fun _ _ => (2 : ℝ)) (fun _ => 1)).1 (fun _ => 1))
        ∧ ∀ i k, i < 1 → k < 1 →
            (downdateRun 1 (cholUpdate 1 (fun _ _ => (2 : ℝ)) (fun _ => 1)).1
                (fun _ => 1)).1 i k
              = (fun _ _ => (2 : ℝ)) i k) := by
  have hL : IsLowerTri (fun _ _ => (2 : ℝ)) 1 :=
    fun i m h1 h2 => absurd h1 (by omega)
  have hd : ∀ m, m < 1 → 0 < (fun _ _ => (2 : ℝ)) m m := fun m _ => by norm_num
  have hM : (cholUpdate 1 (fun _ _ => (2 : ℝ)) (fun _ => 1)).1 0 0
      = Real.sqrt 5 := by
    rw [cholUpdate_one_diag (fun _ _ => (2 : ℝ)) (fun _ => 1) (by norm_num)]
    norm_num
  have hok : downdateOK 1 (cholUpdate 1 (fun _ _ => (2 : ℝ)) (fun _ => 1)).1
      (fun _ => 1) := by
    intro j hj
    have hj0 : j = 0 := by omega
    subst hj0
    show ((1 : ℝ) / (cholUpdate 1 (fun _ _ => (2 : ℝ)) (fun _ => 1)).1 0 0) ^ 2
        < (1 : ℝ) ^ 2
    rw [hM, div_pow, one_pow, Real.sq_sqrt (by norm_num : (0 : ℝ) ≤ 5)]
    norm_num
  exact ⟨hL, hd, hok,
    chol_update_downdate_roundtrip 1 (fun _ _ => (2 : ℝ)) (fun _ => 1)
      hL hd hok⟩

/-- C10: `chol_update` has no error branch, and it preserves the strictly
positive diagonal invariant: each diagonal step `δ*L[j,j] + γ*w[j]` is
positive whenever the incoming diagonal is. -/
theorem chol_update_diag_pos (N : ℕ) (L : Mat) (w : Vec)
    (hL : IsLowerTri L N) (hd : ∀ m, m < N → 0 < L m m) :
    ∀ m, m < N → 0 < (cholUpdate N L w).1 m m :=
  fun m hm => (cholUpdate_props N L w hL hd).2.1 m hm

theorem chol_update_diag_pos_witness :
    IsLowerTri (fun _ _ => (5 : ℝ)) 1
    ∧ (∀ m, m < 1 → 0 < (fun _ _ => (5 : ℝ)) m m)
    ∧ (∀ m, m < 1 →
        0 < (cholUpdate 1 (fun _ _ => (5 : ℝ)) (fun _ => 3)).1 m m) := by
  have hL : IsLowerTri (fun _ _ => (5 : ℝ)) 1 :=
    fun i m h1 h2 => absurd h1 (by omega)
  have hd : ∀ m, m < 1 → 0 < (fun _ _ => (5 : ℝ)) m m := fun m _ => by norm_num
  exact ⟨hL, hd,
    chol_update_diag_pos 1 (fun _ _ => (5 : ℝ)) (fun _ => 3) hL hd⟩

end CSparse
